import Mathlib

/-!
Verification development for a chat front-end that post-processes agent
replies: it extracts markdown links, fuzzy-resolves referenced filenames
against a file inventory, rewrites inline links into in-page anchors and
synthesizes "source card" fragments, and (separately) wraps a hosted-agent
streaming API.

The embedding below is a shallow, executable translation of the two Python
source files (`chat.py` and `src/azure.py`).  Python strings are modelled
as `List Char`; the filesystem and the remote agent backend are modelled as
explicit state records; Python's catch-all `except` blocks become explicit
`Option`/branch results.  The fuzzy similarity scorer (`thefuzz`, an
external library) is abstracted as a parameter `Str → Str → Nat`; the spec
only constrains it to be a deterministic 0-100 score.
-/

/-- Python strings are modelled as lists of characters. -/
abbrev Str := List Char

/-! ## Decimal rendering of naturals (Python f-string `{i}` interpolation) -/

/-- One decimal digit as a character (`0 ≤ d ≤ 9` in actual use). -/
def digitChar (d : Nat) : Char := Char.ofNat (48 + d)

/-- Decimal digits of `n`, most significant first, with explicit fuel
(`fuel > n` suffices).  Mirrors Python's decimal formatting of a
nonnegative integer. -/
def natReprAux : Nat → Nat → Str
  | 0, _ => []
  | fuel + 1, n =>
    if n < 10 then [digitChar n]
    else natReprAux fuel (n / 10) ++ [digitChar (n % 10)]

/-- Decimal rendering of a natural number, as produced by Python
`f"{i}"`. -/
def natRepr (n : Nat) : Str := natReprAux (n + 1) n

/-- Numeric value of a decimal digit string (left inverse used to prove
`natRepr` injective). -/
def digitsVal (s : Str) : Nat := s.foldl (fun a c => 10 * a + (c.toNat - 48)) 0

/-! ## Percent decoding (`urllib.parse.unquote`)

Modelled for single-byte escapes: `%XX` with two hex digits decodes to the
character with that code; a `%` not followed by two hex digits is kept
verbatim.  (Python additionally UTF-8-decodes multi-byte escape runs; no
claim in this development exercises multi-byte escapes.) -/

/-- Value of a hexadecimal digit character, if it is one. -/
def hexVal (c : Char) : Option Nat :=
  if '0' ≤ c ∧ c ≤ '9' then some (c.toNat - 48)
  else if 'a' ≤ c ∧ c ≤ 'f' then some (c.toNat - 87)
  else if 'A' ≤ c ∧ c ≤ 'F' then some (c.toNat - 55)
  else none

/-- `urllib.parse.unquote`, restricted to single-byte escapes. -/
def unquote : Str → Str
  | [] => []
  | '%' :: a :: b :: rest2 =>
    match hexVal a, hexVal b with
    | some x, some y => Char.ofNat (16 * x + y) :: unquote rest2
    | _, _ => '%' :: unquote (a :: b :: rest2)
  | c :: rest => c :: unquote rest

/-! ## `pathlib.PurePosixPath` name and stem -/

/-- Split a string on `/` separators (Python `str.split("/")`). -/
def splitSlash : Str → List Str
  | [] => [[]]
  | c :: rest =>
    if c = '/' then [] :: splitSlash rest
    else
      match splitSlash rest with
      | [] => [[c]]
      | s :: ss => (c :: s) :: ss

/-- `PurePosixPath(p).name`: the final path component.  `pathlib` drops
empty components and `.` components when parsing, so the name is the last
non-empty, non-`.` slash-separated piece (or empty if there is none). -/
def pathName (p : Str) : Str :=
  ((splitSlash p).filter (fun c => c ≠ [] ∧ c ≠ ['.'])).getLast?.getD []

/-- `PurePosixPath(n).stem` applied to a final component `name`:
`name` up to its last `.`, except that a leading-dot-only or trailing-dot
position does not count as a suffix (pathlib keeps `.bashrc` and `a.`
whole). -/
def pyStemOfName (name : Str) : Str :=
  if '.' ∈ name then
    let k := name.reverse.takeWhile (fun c => c ≠ '.') |>.length
    let i := name.length - 1 - k
    if 0 < i ∧ i < name.length - 1 then name.take i else name
  else name

/-- `Path(filename).stem`: stem of the final path component. -/
def pyStem (filename : Str) : Str := pyStemOfName (pathName filename)

/-! ## HTML escaping (`html.escape` with `quote=True`) -/

/-- Escape one character as `html.escape` does (`&`, `<`, `>`, `"`, `'`). -/
def escChar (c : Char) : Str :=
  if c = '&' then "&amp;".data
  else if c = '<' then "&lt;".data
  else if c = '>' then "&gt;".data
  else if c = '"' then "&quot;".data
  else if c = '\x27' then "&#x27;".data
  else [c]

/-- `html.escape(s, quote=True)`.  The Python implementation is a chain of
global `str.replace` passes, `&` first; since no replacement text contains
a character that a later pass rewrites, this equals the character-wise
expansion. -/
def escapeHtml (s : Str) : Str := s.flatMap escChar

/-! ## Markdown link scanning (`re.findall(r'\[([^\]]+)\]\(([^)]+)\)', text)`) -/

/-- Attempt the pattern `([^\]]+)\]\(([^)]+)\)` at the position right after
an opening `[`: greedily take non-`]` characters (at least one), require
`](`, greedily take non-`)` characters (at least one), require `)`.
Returns the two capture groups and the remaining input on success. -/
def tryLink (s : Str) : Option (Str × Str × Str) :=
  let t := s.takeWhile (fun c => c ≠ ']')
  let r1 := s.dropWhile (fun c => c ≠ ']')
  if t = [] then none
  else
    match r1 with
    | ']' :: '(' :: r2 =>
      let u := r2.takeWhile (fun c => c ≠ ')')
      let r3 := r2.dropWhile (fun c => c ≠ ')')
      if u = [] then none
      else
        match r3 with
        | ')' :: r4 => some (t, u, r4)
        | _ => none
    | _ => none

/-- Scanner for `re.findall`: at each position try a match; on success
record the groups and continue after the match, otherwise advance one
character.  Structural in the fuel; `fuel ≥ s.length` makes the result
fuel-independent (`findLinksAux_irrel`). -/
def findLinksAux : Nat → Str → List (Str × Str)
  | 0, _ => []
  | _, [] => []
  | fuel + 1, c :: rest =>
    if c = '[' then
      match tryLink rest with
      | some (t, u, r) => (t, u) :: findLinksAux fuel r
      | none => findLinksAux fuel rest
    else findLinksAux fuel rest

/-- `re.findall(r'\[([^\]]+)\]\(([^)]+)\)', text)`: the list of
(link text, url) capture pairs, leftmost non-overlapping matches. -/
def findLinks (s : Str) : List (Str × Str) := findLinksAux s.length s

/-! ## `str.replace(old, new, 1)` -/

/-- Python `s.replace(old, new, 1)`: replace the first occurrence of `old`
in `s` by `new` (with Python's convention that an empty `old` matches at
the start). -/
def replaceFirst (s old new : Str) : Str :=
  if old.isPrefixOf s then new ++ s.drop old.length
  else
    match s with
    | [] => []
    | c :: rest => c :: replaceFirst rest old new

/-! ## Basic lemmas about the primitives -/

theorem digitChar_toNat (d : Nat) (h : d < 10) : (digitChar d).toNat = 48 + d := by
  interval_cases d <;> decide

theorem natReprAux_val (fuel n : Nat) (h : n < fuel) :
    digitsVal (natReprAux fuel n) = n := by
  induction fuel generalizing n with
  | zero => omega
  | succ fuel ih =>
    by_cases hn : n < 10
    · simp only [natReprAux, if_pos hn, digitsVal, List.foldl]
      rw [digitChar_toNat n hn]
      omega
    · simp only [natReprAux, if_neg hn, digitsVal]
      rw [List.foldl_append]
      have hdiv : n / 10 < fuel := by
        have h1 : n / 10 < n := Nat.div_lt_self (by omega) (by omega)
        omega
      have hv := ih (n / 10) hdiv
      simp only [digitsVal] at hv
      simp only [List.foldl, hv]
      rw [digitChar_toNat (n % 10) (Nat.mod_lt n (by omega))]
      omega

theorem natRepr_injective : Function.Injective natRepr := by
  intro m n h
  have h1 := natReprAux_val (m + 1) m (Nat.lt_succ_self m)
  have h2 := natReprAux_val (n + 1) n (Nat.lt_succ_self n)
  unfold natRepr at h
  rw [h] at h1
  omega

/-! ## File inventory scanner (`scan_files_directory`)

The filesystem is modelled as an explicit record: whether the scan root
exists, whether an I/O error occurs during the recursive walk (Python's
`except` around the walk), and the walked entries in `rglob` order.  Each
entry carries the repo-relative path string that
`file_path.relative_to(Path("."))` produces and whether it is a regular
file.  The function is pure, so it cannot mutate the filesystem or raise;
the caught-error paths return `none` exactly as the Python returns
`None`. -/

/-- One entry produced by the recursive walk. -/
structure FSEntry where
  path : Str
  isFile : Bool
deriving DecidableEq

/-- The ambient filesystem state seen by `scan_files_directory`. -/
structure FileSystem where
  dirExists : Bool
  walkError : Bool
  entries : List FSEntry
deriving DecidableEq

/-- One inventory record (`{'path', 'name_without_ext', 'full_name'}`). -/
structure FileRecord where
  path : Str
  name_without_ext : Str
  full_name : Str
deriving DecidableEq

/-- `scan_files_directory`: `None` on a missing directory, on a walk
error, or when no regular file is found; otherwise the records for the
regular files in walk order. -/
def scan_files_directory (fs : FileSystem) : Option (List FileRecord) :=
  if ¬ fs.dirExists then none
  else if fs.walkError then none
  else
    let all_files := (fs.entries.filter (·.isFile)).map
      (fun e => ⟨e.path, pyStem e.path, pathName e.path⟩)
    if all_files = [] then none else some all_files

/-! ## Fuzzy link resolver (`find_best_match`)

`thefuzz.process.extractOne` is external; its selection logic is embedded
(first maximum wins, as Python's `max` keeps the first of equal keys) and
its similarity scorer is abstracted as a parameter. -/

/-- An abstract similarity scorer: query, choice ↦ score. -/
abbrev Scorer := Str → Str → Nat

/-- `thefuzz.process.extractOne(query, choices)`: the (choice, score) pair
with the highest score, the first such on ties; `None` on no choices. -/
def extractOne (scorer : Scorer) (query : Str) (choices : List Str) :
    Option (Str × Nat) :=
  match choices with
  | [] => none
  | c :: cs =>
    some (cs.foldl
      (fun best x => if scorer query x > best.2 then (x, scorer query x) else best)
      (c, scorer query c))

/-- Python `list.index`: index of the first occurrence (length if absent,
so that the subsequent lookup fails like Python's raised `ValueError`
being caught). -/
def indexOfStr (x : Str) : List Str → Nat
  | [] => 0
  | y :: ys => if y = x then 0 else indexOfStr x ys + 1

/-- `find_best_match(filename, file_list)`: `None` on an absent or empty
list; otherwise the path of the first inventory record whose stem attains
the best score, provided that score exceeds 60. -/
def find_best_match (scorer : Scorer) (filename : Str)
    (file_list : Option (List FileRecord)) : Option Str :=
  match file_list with
  | none => none
  | some fl =>
    if fl = [] then none
    else
      let target_name := pyStem filename
      let names_for_matching := fl.map (·.name_without_ext)
      match extractOne scorer target_name names_for_matching with
      | none => none
      | some best =>
        if best.2 > 60 then
          (fl.get? (indexOfStr best.1 names_for_matching)).map (·.path)
        else none

/-! ## Markdown link extractor (`extract_markdown_links`) -/

/-- The record built per extracted link (the Python dict with keys
`filename`, `url`, `original_link`, `text`, `fuzzy_matched`). -/
structure ExtractedLink where
  filename : Str
  url : Str
  original_link : Str
  text : Str
  fuzzy_matched : Bool
deriving DecidableEq

/-- The exact matched substring `[linkText](url)`. -/
def linkRender (t u : Str) : Str := '[' :: (t ++ ']' :: '(' :: (u ++ [')']))

/-- The file-serving URL scheme prepended to a resolved path. -/
def gradioFilePre : Str := "/gradio_api/file=".data

/-- Does the URL start with `http://` or `https://`? -/
def isHttpUrl (u : Str) : Bool :=
  "http://".data.isPrefixOf u || "https://".data.isPrefixOf u

/-- The per-link body of the `extract_markdown_links` loop: derive a
candidate filename from the URL's last path segment (falling back to the
link text when empty or extension-less), percent-decode it, resolve it,
and build the record. -/
def mkLink (scorer : Scorer) (file_list : Option (List FileRecord))
    (p : Str × Str) : ExtractedLink :=
  let link_text := p.1
  let url := p.2
  let filename0 := if url ≠ [] then pathName url else link_text
  let filename1 := if filename0 = [] ∨ '.' ∉ filename0 then link_text else filename0
  let filename := unquote filename1
  let matched_filepath := find_best_match scorer filename file_list
  let final_url :=
    match matched_filepath with
    | some mp => gradioFilePre ++ mp
    | none => url
  { filename := filename.takeWhile (fun c => c ≠ '.'),
    url := final_url,
    original_link := linkRender link_text url,
    text := link_text,
    fuzzy_matched := matched_filepath.isSome }

/-- `extract_markdown_links(text)`: all regex matches, minus `http(s)`
links, processed against one inventory snapshot taken for the whole
call. -/
def extract_markdown_links (scorer : Scorer) (fs : FileSystem) (text : Str) :
    List ExtractedLink :=
  let foundMatches := findLinks text
  if foundMatches = [] then []
  else
    let file_list := scan_files_directory fs
    (foundMatches.filter (fun p => ¬ isHttpUrl p.2)).map (mkLink scorer file_list)

/-! ## Message rewriter / card synthesizer (the link block of `bot`) -/

/-- `f"source-card-{i}"`. -/
def anchorId (i : Nat) : Str := "source-card-".data ++ natRepr i

/-- The anchor element substituted for the `i`-th markdown link. -/
def anchorLink (i : Nat) (text : Str) : Str :=
  "<a href=\"#".data ++ anchorId i
    ++ "\" onclick=\"document.getElementById(\x27".data ++ anchorId i
    ++ "\x27).scrollIntoView(\x7bbehavior: \x27smooth\x27\x7d); return false;\">".data
    ++ escapeHtml text ++ "</a>".data

/-- The `card-icon` characters as they appear (mojibake-encoded) in the
source file. -/
def cardIcon : Str := [Char.ofNat 0xF0, Char.ofNat 0x178, Char.ofNat 0x201C, Char.ofNat 0x201E]

/-- The `i`-th source card element. -/
def cardHtml (i : Nat) (l : ExtractedLink) : Str :=
  "<div class=\"source-card\" id=\"".data ++ anchorId i
    ++ "\"><div class=\"card-icon\">".data ++ cardIcon
    ++ "</div><div class=\"card-title\">".data ++ escapeHtml l.filename
    ++ "</div><a href=\"".data ++ escapeHtml l.url
    ++ "\" class=\"card-link\" target=\"_blank\">Download</a></div>".data

/-- The first `for` loop of the rewrite block: `enumerate` starting at `i`,
each step `updated_message.replace(original_link, anchor_link, 1)`. -/
def replaceLinksFrom (msg : Str) (i : Nat) : List ExtractedLink → Str
  | [] => msg
  | l :: ls => replaceLinksFrom (replaceFirst msg l.original_link (anchorLink i l.text)) (i + 1) ls

/-- The fully inline-rewritten message (all links replaced, index from 0). -/
def updatedMessage (msg : Str) (links : List ExtractedLink) : Str :=
  replaceLinksFrom msg 0 links

/-- The second `for` loop: one card per link, `enumerate` starting at `i`. -/
def cardsFrom (i : Nat) : List ExtractedLink → List Str
  | [] => []
  | l :: ls => cardHtml i l :: cardsFrom (i + 1) ls

/-- The card container fragment appended to the message. -/
def cards_html (links : List ExtractedLink) : Str :=
  "\n\n<div class=\"source-cards-container\">".data
    ++ (cardsFrom 0 links).flatten ++ "</div>".data

/-- The content produced by the rewrite block for a message with the given
extracted links: inline replacements first, then the card container
appended at the end. -/
def rewriteMessage (msg : Str) (links : List ExtractedLink) : Str :=
  updatedMessage msg links ++ cards_html links

/-! ## Turn controller (`bot`) -/

/-- The role tag of the streamed entry. -/
def assistantRole : Str := "assistant".data

/-- The fixed user-facing apology of `bot`'s `except` handler. -/
def apologyMsg : Str :=
  "Sorry, I encountered an error while processing your request. Please try again.".data

/-- A chat history entry (`{"role": ..., "content": ...}`). -/
structure ChatMsg where
  role : Str
  content : Str
deriving DecidableEq

/-- One turn's interaction with the agent stream: the text chunks that were
delivered, and whether an exception was raised afterwards (by the stream
iteration or by the rewrite pipeline). -/
structure AgentStream where
  chunks : List Str
  raisesErr : Bool
deriving DecidableEq

/-- The sequence of history snapshots `bot` yields for one turn: one per
streamed chunk (content appended so far), then one more carrying either
the rewritten message (when links were found), nothing (no links), or the
apology (when an exception was raised — it replaces the partial content
wholesale). -/
def botYields (scorer : Scorer) (fs : FileSystem) (history : List ChatMsg)
    (st : AgentStream) : List (List ChatMsg) :=
  let partials := (List.range st.chunks.length).map
    (fun k => history ++ [⟨assistantRole, (st.chunks.take (k + 1)).flatten⟩])
  if st.raisesErr then partials ++ [history ++ [⟨assistantRole, apologyMsg⟩]]
  else
    let final_message := st.chunks.flatten
    let links_info := extract_markdown_links scorer fs final_message
    if links_info = [] then partials
    else partials ++ [history ++ [⟨assistantRole, rewriteMessage final_message links_info⟩]]

/-! ## Azure agent streaming client (`src/azure.py`)

The remote backend is modelled as a record of `Except`-valued operations:
each field is what the corresponding awaited Azure call does on this turn
(`.error e` models a raised exception carrying `str(e)`).  The async
generator `send_message_streaming` is modelled by the finite outcome it
produces: the chunks it yields, plus `raised = some e` when the generator
terminates by (re)raising instead of completing. -/

/-- The run object returned by `runs.create_and_process`. -/
structure RunInfo where
  status : Str
  last_error : Str
deriving DecidableEq

/-- One stored thread message: its role and the values of its
`text_messages`. -/
structure ThreadMsg where
  role : Str
  texts : List Str
deriving DecidableEq

/-- The backend state/behaviour seen by one `send_message_streaming`
call. -/
structure AgentEnv where
  currentThread : Option Str
  threadCreate : Except Str Str
  messageCreate : Except Str Unit
  getAgent : Except Str Str
  runResult : Except Str RunInfo
  listMessages : Except Str (List ThreadMsg)

/-- Outcome of consuming the async generator to its end: the yielded
chunks, and the exception it raised, if any. -/
structure StreamResult where
  chunks : List Str
  raised : Option Str
deriving DecidableEq

/-- Prefix of the error chunks built with `f"... request: {e}"`. -/
def errPre : Str :=
  "Sorry, I encountered an error while processing your request: ".data

/-- The message yielded when a fresh thread has a falsy id. -/
def noStartMsg : Str :=
  "Sorry, I couldn\x27t start a new conversation. Please try again.".data

/-- The message yielded when no assistant response is found. -/
def noResponseMsg : Str :=
  "I\x27m sorry, I didn\x27t receive a proper response. Please try again.".data

/-- The scan for the latest assistant response: the loop keeps the last
message whose role is `assistant` and whose `text_messages` is non-empty,
taking the last text value. -/
def latestAssistant (msgs : List ThreadMsg) : Option Str :=
  msgs.foldl
    (fun acc m =>
      if m.role = "assistant".data then
        match m.texts.getLast? with
        | some t => some t
        | none => acc
      else acc)
    none

/-- The `try:` body of `send_message_streaming`: every raised exception is
caught and converted into a single yielded error chunk; a failed run and a
missing response likewise yield one error chunk; success yields the
response as one chunk. -/
def streamBody (env : AgentEnv) : StreamResult :=
  match env.messageCreate with
  | .error e => ⟨[errPre ++ e], none⟩
  | .ok _ =>
    match env.getAgent with
    | .error e => ⟨[errPre ++ e], none⟩
    | .ok _ =>
      match env.runResult with
      | .error e => ⟨[errPre ++ e], none⟩
      | .ok run =>
        if run.status = "failed".data then ⟨[errPre ++ run.last_error], none⟩
        else
          match env.listMessages with
          | .error e => ⟨[errPre ++ e], none⟩
          | .ok msgs =>
            match latestAssistant msgs with
            | some r => ⟨[r], none⟩
            | none => ⟨[noResponseMsg], none⟩

/-- `AzureAgentClient.send_message_streaming(content, thread_id)`: resolve
the target thread (a truthy argument, else the current thread, else a
fresh one — `create_new_conversation` re-raises on failure, and that
happens *outside* the `try`), then run the body.  A fresh thread with a
falsy id yields the no-start message and returns. -/
def send_message_streaming (env : AgentEnv) (thread_id : Option Str) :
    StreamResult :=
  if thread_id.getD [] ≠ [] then streamBody env
  else
    match env.currentThread with
    | some _ => streamBody env
    | none =>
      match env.threadCreate with
      | .error e => ⟨[], some e⟩
      | .ok tid => if tid = [] then ⟨[noStartMsg], none⟩ else streamBody env

/-- `send_message_to_agent_streaming(content)`: the module-level wrapper
passes no thread id and relays every chunk of the client call. -/
def send_message_to_agent_streaming (env : AgentEnv) : StreamResult :=
  send_message_streaming env none

/-! ## Lemmas about the link scanner -/

theorem takeWhile_append_cons {p : Char → Bool} {t : Str} {x : Char} {w : Str}
    (h : ∀ c ∈ t, p c = true) (hx : p x = false) :
    (t ++ x :: w).takeWhile p = t ∧ (t ++ x :: w).dropWhile p = x :: w := by
  induction t with
  | nil => simp [List.takeWhile, List.dropWhile, hx]
  | cons c t' ih =>
    have hc : p c = true := h c (List.mem_cons_self c t')
    have ih' := ih (fun a ha => h a (List.mem_cons_of_mem c ha))
    simp [List.takeWhile, List.dropWhile, hc, ih'.1, ih'.2]

theorem tryLink_some {s t u r : Str} (h : tryLink s = some (t, u, r)) :
    s = t ++ ']' :: '(' :: (u ++ ')' :: r) ∧ t ≠ [] ∧ u ≠ [] ∧
      (∀ c ∈ t, c ≠ ']') ∧ (∀ c ∈ u, c ≠ ')') := by
  simp only [tryLink] at h
  split at h
  · exact absurd h (by simp)
  · rename_i hT
    split at h
    · rename_i r2 hr1
      split at h
      · exact absurd h (by simp)
      · rename_i hU
        split at h
        · rename_i r4 hr3
          rw [Option.some.injEq, Prod.mk.injEq, Prod.mk.injEq] at h
          obtain ⟨h1, h2, h3⟩ := h
          have hs : s = t ++ ']' :: '(' :: r2 := by
            conv_lhs => rw [← List.takeWhile_append_dropWhile (p := fun c => decide (c ≠ ']')) (l := s)]
            rw [h1, hr1]
          have hr2 : r2 = u ++ ')' :: r := by
            conv_lhs => rw [← List.takeWhile_append_dropWhile (p := fun c => decide (c ≠ ')')) (l := r2)]
            rw [h2, hr3, h3]
          refine ⟨by rw [hs, hr2], ?_, ?_, ?_, ?_⟩
          · intro hh; exact hT (by rw [h1, hh])
          · intro hh; exact hU (by rw [h2, hh])
          · intro c hc
            have := List.mem_takeWhile_imp (p := fun c => decide (c ≠ ']')) (h1 ▸ hc)
            simpa using this
          · intro c hc
            have := List.mem_takeWhile_imp (p := fun c => decide (c ≠ ')')) (h2 ▸ hc)
            simpa using this
        · exact absurd h (by simp)
    · exact absurd h (by simp)

theorem tryLink_render (t u r : Str) (ht : t ≠ []) (htc : ∀ c ∈ t, c ≠ ']')
    (hu : u ≠ []) (huc : ∀ c ∈ u, c ≠ ')') :
    tryLink (t ++ ']' :: '(' :: (u ++ ')' :: r)) = some (t, u, r) := by
  have hT := takeWhile_append_cons (p := fun c => decide (c ≠ ']'))
    (t := t) (x := ']') (w := '(' :: (u ++ ')' :: r))
    (fun c hc => by simpa using htc c hc) (by simp)
  have hU := takeWhile_append_cons (p := fun c => decide (c ≠ ')'))
    (t := u) (x := ')') (w := r)
    (fun c hc => by simpa using huc c hc) (by simp)
  simp only [tryLink, hT.1, hT.2, hU.1, hU.2, if_neg ht, if_neg hu]

theorem tryLink_length {s t u r : Str} (h : tryLink s = some (t, u, r)) :
    r.length < s.length := by
  obtain ⟨hs, ht, -, -, -⟩ := tryLink_some h
  subst hs
  simp [List.length_append]
  omega

theorem findLinksAux_nil (f : Nat) : findLinksAux f [] = [] := by
  cases f <;> rfl

theorem findLinksAux_irrel : ∀ (f1 f2 : Nat) (s : Str),
    s.length ≤ f1 → s.length ≤ f2 → findLinksAux f1 s = findLinksAux f2 s := by
  intro f1
  induction f1 with
  | zero =>
    intro f2 s h1 _
    have : s = [] := List.length_eq_zero.mp (Nat.le_zero.mp h1)
    subst this
    rw [findLinksAux_nil, findLinksAux_nil]
  | succ f1 ih =>
    intro f2 s h1 h2
    cases s with
    | nil => rw [findLinksAux_nil, findLinksAux_nil]
    | cons c rest =>
      cases f2 with
      | zero => simp at h2
      | succ f2 =>
        simp only [findLinksAux]
        by_cases hc : c = '['
        · simp only [if_pos hc]
          cases htl : tryLink rest with
          | some v =>
            obtain ⟨t, u, r⟩ := v
            have hlen := tryLink_length htl
            simp only [List.length_cons] at h1 h2
            show (t, u) :: findLinksAux f1 r = (t, u) :: findLinksAux f2 r
            rw [ih f2 r (by omega) (by omega)]
          | none =>
            simp only [List.length_cons] at h1 h2
            show findLinksAux f1 rest = findLinksAux f2 rest
            exact ih f2 rest (by omega) (by omega)
        · simp only [if_neg hc]
          simp only [List.length_cons] at h1 h2
          exact ih f2 rest (by omega) (by omega)

theorem findLinks_cons_not {c : Char} (s : Str) (h : c ≠ '[') :
    findLinks (c :: s) = findLinks s := by
  simp only [findLinks, List.length_cons, findLinksAux, if_neg h]

theorem findLinks_cons_some {s t u r : Str} (h : tryLink s = some (t, u, r)) :
    findLinks ('[' :: s) = (t, u) :: findLinks r := by
  have hlen := tryLink_length h
  simp only [findLinks, List.length_cons, findLinksAux, h, if_true]
  rw [findLinksAux_irrel s.length r.length r (by omega) (Nat.le_refl _)]

theorem findLinks_cons_none {s : Str} (h : tryLink s = none) :
    findLinks ('[' :: s) = findLinks s := by
  simp only [findLinks, List.length_cons, findLinksAux, h, if_true]

theorem findLinks_append_left (s r : Str) (h : ∀ c ∈ s, c ≠ '[') :
    findLinks (s ++ r) = findLinks r := by
  induction s with
  | nil => simp
  | cons c s' ih =>
    rw [List.cons_append, findLinks_cons_not _ (h c (List.mem_cons_self c s'))]
    exact ih (fun a ha => h a (List.mem_cons_of_mem c ha))

theorem findLinks_no_bracket (s : Str) (h : ∀ c ∈ s, c ≠ '[') :
    findLinks s = [] := by
  have := findLinks_append_left s [] h
  simpa using this

theorem findLinks_link_cons (t u rest : Str) (ht : t ≠ []) (htc : ∀ c ∈ t, c ≠ ']')
    (hu : u ≠ []) (huc : ∀ c ∈ u, c ≠ ')') :
    findLinks (linkRender t u ++ rest) = (t, u) :: findLinks rest := by
  have : linkRender t u ++ rest = '[' :: (t ++ ']' :: '(' :: (u ++ ')' :: rest)) := by
    simp [linkRender]
  rw [this, findLinks_cons_some (tryLink_render t u rest ht htc hu huc)]

theorem findLinks_mem {s : Str} : ∀ {t u : Str}, (t, u) ∈ findLinks s →
    t ≠ [] ∧ u ≠ [] ∧ (∀ c ∈ t, c ≠ ']') ∧ (∀ c ∈ u, c ≠ ')') := by
  suffices H : ∀ (f : Nat) (s t u : Str), (t, u) ∈ findLinksAux f s →
      t ≠ [] ∧ u ≠ [] ∧ (∀ c ∈ t, c ≠ ']') ∧ (∀ c ∈ u, c ≠ ')') by
    intro t u h
    exact H s.length s t u h
  intro f
  induction f with
  | zero => intro s t u h; simp [findLinksAux] at h
  | succ f ih =>
    intro s t u h
    cases s with
    | nil => simp [findLinksAux] at h
    | cons c rest =>
      simp only [findLinksAux] at h
      by_cases hc : c = '['
      · rw [if_pos hc] at h
        cases htl : tryLink rest with
        | some v =>
          obtain ⟨t', u', r'⟩ := v
          rw [htl] at h
          rcases List.mem_cons.mp h with h | h
          · obtain ⟨-, ht', hu', htc', huc'⟩ := tryLink_some htl
            rw [Prod.mk.injEq] at h
            obtain ⟨h1, h2⟩ := h
            subst h1; subst h2
            exact ⟨ht', hu', htc', huc'⟩
          · exact ih r' t u h
        | none =>
          rw [htl] at h
          exact ih rest t u h
      · rw [if_neg hc] at h
        exact ih rest t u h

/-! ## Lemmas about the fuzzy resolver -/

/-- The best similarity score a candidate reaches over an inventory's
stems (0 when there are none). -/
def bestScoreOf (scorer : Scorer) (q : Str) (names : List Str) : Nat :=
  (names.map (scorer q)).foldl max 0

theorem foldl_step_stay (sc : Scorer) (q : Str) :
    ∀ (cs : List Str) (b : Str × Nat), (∀ y ∈ cs, sc q y ≤ b.2) →
      cs.foldl (fun best x => if sc q x > best.2 then (x, sc q x) else best) b = b := by
  intro cs
  induction cs with
  | nil => intro b _; rfl
  | cons c cs ih =>
    intro b hb
    have hc : sc q c ≤ b.2 := hb c (List.mem_cons_self c cs)
    simp only [List.foldl, if_neg (by omega : ¬ sc q c > b.2)]
    exact ih b (fun y hy => hb y (List.mem_cons_of_mem c hy))

theorem foldl_step_shape (sc : Scorer) (q : Str) :
    ∀ (cs : List Str) (x : Str), ∃ z,
      cs.foldl (fun best y => if sc q y > best.2 then (y, sc q y) else best) (x, sc q x)
        = (z, sc q z) ∧ (z = x ∨ z ∈ cs) := by
  intro cs
  induction cs with
  | nil => intro x; exact ⟨x, rfl, Or.inl rfl⟩
  | cons c cs ih =>
    intro x
    simp only [List.foldl]
    by_cases h : sc q c > sc q x
    · rw [if_pos h]
      obtain ⟨z, hz, hmem⟩ := ih c
      exact ⟨z, hz, Or.inr (by rcases hmem with h' | h' <;> simp [h'])⟩
    · rw [if_neg h]
      obtain ⟨z, hz, hmem⟩ := ih x
      exact ⟨z, hz, by rcases hmem with h' | h' <;> simp [h']⟩

theorem foldl_step_score (sc : Scorer) (q : Str) :
    ∀ (cs : List Str) (b : Str × Nat),
      (cs.foldl (fun best y => if sc q y > best.2 then (y, sc q y) else best) b).2
        = cs.foldl (fun a y => max a (sc q y)) b.2 := by
  intro cs
  induction cs with
  | nil => intro b; rfl
  | cons c cs ih =>
    intro b
    simp only [List.foldl]
    by_cases h : sc q c > b.2
    · rw [if_pos h, ih]
      congr 1
      omega
    · rw [if_neg h, ih]
      congr 1
      omega

theorem extractOne_score (sc : Scorer) (q : Str) (c : Str) (cs : List Str) :
    ∃ z, extractOne sc q (c :: cs) = some (z, sc q z) ∧ (z ∈ c :: cs) ∧
      sc q z = bestScoreOf sc q (c :: cs) := by
  obtain ⟨z, hz, hmem⟩ := foldl_step_shape sc q cs c
  refine ⟨z, ?_, ?_, ?_⟩
  · simp only [extractOne, hz]
  · rcases hmem with h | h <;> simp [h]
  · have hs := foldl_step_score sc q cs (c, sc q c)
    rw [hz] at hs
    simp only [bestScoreOf, List.map_cons, List.foldl_cons, List.foldl_map]
    rw [show ((0 : Nat) ⊔ sc q c) = sc q c by omega]
    exact hs

theorem indexOfStr_lt_length {x : Str} : ∀ {l : List Str}, x ∈ l → indexOfStr x l < l.length := by
  intro l
  induction l with
  | nil => intro h; simp at h
  | cons y ys ih =>
    intro h
    by_cases hy : y = x
    · simp [indexOfStr, hy]
    · rcases List.mem_cons.mp h with h' | h'
      · exact absurd h'.symm hy
      · simp only [indexOfStr, if_neg hy, List.length_cons]
        exact Nat.succ_lt_succ (ih h')

theorem find_bm_core (scorer : Scorer) (filename : Str) (fl : List FileRecord) :
    (find_best_match scorer filename (some fl)).isSome = true ↔
      (fl ≠ [] ∧ bestScoreOf scorer (pyStem filename) (fl.map (·.name_without_ext)) > 60) := by
  cases fl with
  | nil => simp [find_best_match, bestScoreOf]
  | cons f fl' =>
    simp only [find_best_match, if_neg (by simp : ¬ (f :: fl' = []))]
    obtain ⟨z, hz, hmem, hscore⟩ := extractOne_score scorer (pyStem filename)
      (f.name_without_ext) (fl'.map (·.name_without_ext))
    rw [List.map_cons]
    simp only [hz]
    by_cases hgt : scorer (pyStem filename) z > 60
    · rw [if_pos hgt]
      have hlt : indexOfStr z (f.name_without_ext :: fl'.map (·.name_without_ext))
          < (f :: fl').length := by
        have := indexOfStr_lt_length hmem
        simpa using this
      constructor
      · intro _
        refine ⟨by simp, ?_⟩
        rw [← hscore]
        exact hgt
      · intro _
        rw [List.get?_eq_get hlt]
        simp
    · rw [if_neg hgt]
      simp only [Option.isSome_none, Bool.false_eq_true, false_iff]
      rintro ⟨-, hbs⟩
      rw [← hscore] at hbs
      exact hgt hbs

theorem foldl_max_le_init : ∀ (l : List Nat) (a : Nat), a ≤ l.foldl max a := by
  intro l
  induction l with
  | nil => intro a; exact Nat.le_refl a
  | cons x xs ih =>
    intro a
    calc a ≤ max a x := Nat.le_max_left a x
    _ ≤ xs.foldl max (max a x) := ih (max a x)

theorem foldl_max_le : ∀ (l : List Nat) (a b : Nat), b ∈ l → b ≤ l.foldl max a := by
  intro l
  induction l with
  | nil => intro a b h; simp at h
  | cons x xs ih =>
    intro a b h
    rcases List.mem_cons.mp h with h' | h'
    · subst h'
      calc b ≤ max a b := Nat.le_max_right a b
      _ ≤ xs.foldl max (max a b) := foldl_max_le_init xs (max a b)
    · exact ih (max a x) b h'

theorem le_bestScoreOf (sc : Scorer) (q : Str) (names : List Str) (y : Str)
    (h : y ∈ names) : sc q y ≤ bestScoreOf sc q names :=
  foldl_max_le (names.map (sc q)) 0 (sc q y) (List.mem_map_of_mem (sc q) h)

theorem foldl_step_first (sc : Scorer) (q : Str) :
    ∀ (cs : List Str) (b : Str × Nat) (i : Nat) (hi : i < cs.length),
      b.2 < sc q cs[i] →
      (∀ k (hk : k < cs.length), sc q cs[k] ≤ sc q cs[i]) →
      (∀ k (hk : k < i), sc q cs[k] < sc q cs[i]) →
      cs.foldl (fun best y => if sc q y > best.2 then (y, sc q y) else best) b
        = (cs[i], sc q cs[i]) := by
  intro cs
  induction cs with
  | nil => intro b i hi; simp at hi
  | cons c cs2 ih =>
    intro b i hi hlt hmax hfirst
    cases i with
    | zero =>
      simp only [List.getElem_cons_zero] at hlt ⊢
      simp only [List.foldl, if_pos hlt]
      apply foldl_step_stay
      intro y hy
      obtain ⟨k, hk, hget⟩ := List.mem_iff_getElem.mp hy
      have h2 := hmax (k + 1) (by simpa using Nat.succ_lt_succ hk)
      simp only [List.getElem_cons_succ, List.getElem_cons_zero] at h2
      rw [hget] at h2
      exact h2
    | succ j =>
      have hj : j < cs2.length := by simpa using Nat.lt_of_succ_lt_succ hi
      have hc0 : sc q c < sc q cs2[j] := by
        have h2 := hfirst 0 (Nat.succ_pos j)
        simpa using h2
      simp only [List.getElem_cons_succ] at hlt ⊢
      simp only [List.foldl]
      have hstep : (if sc q c > b.2 then (c, sc q c) else b).2 < sc q cs2[j] := by
        by_cases h : sc q c > b.2 <;> simp only [if_pos, if_neg, h, ite_true, ite_false] <;> omega
      rw [ih _ j hj hstep
        (fun k hk => by
          have h2 := hmax (k + 1) (Nat.succ_lt_succ hk)
          simpa using h2)
        (fun k hk => by
          have h2 := hfirst (k + 1) (Nat.succ_lt_succ hk)
          simpa using h2)]

theorem extractOne_first (sc : Scorer) (q : Str) (names : List Str) (i : Nat)
    (hi : i < names.length)
    (hmax : ∀ k (hk : k < names.length), sc q names[k] ≤ sc q names[i])
    (hfirst : ∀ k (hk : k < i), sc q names[k] < sc q names[i]) :
    extractOne sc q names = some (names[i], sc q names[i]) := by
  cases names with
  | nil => simp at hi
  | cons c cs =>
    simp only [extractOne]
    cases i with
    | zero =>
      simp only [List.getElem_cons_zero]
      rw [foldl_step_stay sc q cs (c, sc q c) (fun y hy => by
        obtain ⟨k, hk, hget⟩ := List.mem_iff_getElem.mp hy
        have h2 := hmax (k + 1) (by simpa using Nat.succ_lt_succ hk)
        simp only [List.getElem_cons_succ, List.getElem_cons_zero] at h2
        rw [hget] at h2
        exact h2)]
    | succ j =>
      have hj : j < cs.length := by simpa using Nat.lt_of_succ_lt_succ hi
      have hc0 : sc q c < sc q cs[j] := by
        have h2 := hfirst 0 (Nat.succ_pos j)
        simpa using h2
      simp only [List.getElem_cons_succ]
      rw [foldl_step_first sc q cs (c, sc q c) j hj hc0
        (fun k hk => by
          have h2 := hmax (k + 1) (Nat.succ_lt_succ hk)
          simpa using h2)
        (fun k hk => by
          have h2 := hfirst (k + 1) (Nat.succ_lt_succ hk)
          simpa using h2)]

theorem indexOfStr_getElem : ∀ (l : List Str) (i : Nat) (hi : i < l.length),
    (∀ k (hk : k < i), l[k]? ≠ some l[i]) →
    indexOfStr l[i] l = i := by
  intro l
  induction l with
  | nil => intro i hi; simp at hi
  | cons y ys ih =>
    intro i hi hne
    cases i with
    | zero => simp [indexOfStr]
    | succ j =>
      have hj : j < ys.length := by simpa using Nat.lt_of_succ_lt_succ hi
      have hy : ¬ (y = (y :: ys)[j + 1]) := by
        have h2 := hne 0 (Nat.succ_pos j)
        simp only [List.getElem?_cons_zero] at h2
        intro hcontra
        exact h2 (congrArg some hcontra)
      simp only [List.getElem_cons_succ] at hy ⊢
      simp only [indexOfStr, if_neg hy]
      rw [ih j hj (fun k hk => by
        have h2 := hne (k + 1) (Nat.succ_lt_succ hk)
        simp only [List.getElem?_cons_succ, List.getElem_cons_succ] at h2
        exact h2)]

/-! ## Concrete instances used by witnesses and counterexamples -/

/-- A miniature deterministic scorer used for concrete instantiations:
100 for identical strings (as the spec requires of the real scorer),
0 otherwise. -/
def eqScorer : Scorer := fun q c => if q = c then 100 else 0

/-- A two-record inventory whose entries share the stem `aa`. -/
def twinInventory : List FileRecord :=
  [⟨"public/files/a.pdf".data, "aa".data, "a.pdf".data⟩,
   ⟨"public/files/b.pdf".data, "aa".data, "b.pdf".data⟩]

/-! ## C2 -/

/-- C2: `find_best_match` returns a path exactly when the inventory is
non-absent and non-empty and the best similarity score of the
extension-stripped candidate against the inventory stems is strictly
greater than 60; an absent inventory yields `none` outright (score 60
lands in the `isSome = false` side of the equivalence, as does an empty
list). -/
theorem C2_find_best_match_threshold (scorer : Scorer) (filename : Str)
    (fl : List FileRecord) :
    (find_best_match scorer filename none = none) ∧
    ((find_best_match scorer filename (some fl)).isSome = true ↔
      (fl ≠ [] ∧ bestScoreOf scorer (pyStem filename) (fl.map (·.name_without_ext)) > 60)) :=
  ⟨rfl, find_bm_core scorer filename fl⟩

/-- C2 witness: on a one-record inventory with stem `report_final` and the
candidate `report_final.pdf` (score 100 > 60) a path is returned; with the
candidate `zz` under a scorer giving it score exactly 60, nothing is. -/
theorem C2_find_best_match_threshold_witness :
    (find_best_match eqScorer "report_final.pdf".data
      (some [⟨"public/files/report_final.pdf".data, "report_final".data,
        "report_final.pdf".data⟩])).isSome = true ∧
    (find_best_match (fun _ _ => 60) "zz".data
      (some [⟨"public/files/report_final.pdf".data, "report_final".data,
        "report_final.pdf".data⟩])).isSome = false := by
  constructor
  · exact (C2_find_best_match_threshold eqScorer "report_final.pdf".data _).2.mpr
      ⟨by decide, by decide⟩
  · have h := (C2_find_best_match_threshold (fun _ _ => 60) "zz".data
      [⟨"public/files/report_final.pdf".data, "report_final".data,
        "report_final.pdf".data⟩]).2
    by_cases hb : (find_best_match (fun _ _ => 60) "zz".data
        (some [⟨"public/files/report_final.pdf".data, "report_final".data,
          "report_final.pdf".data⟩])).isSome = true
    · obtain ⟨-, habs⟩ := h.mp hb
      exact absurd habs (by decide)
    · simpa using hb

/-! ## C5 -/

/-- C5 counterexample: in `twinInventory` both entries attain the maximum
similarity score for the candidate `zz` (both score 0), yet
`find_best_match` returns no path at all — the claim's unconditional
"returns the path of the first such entry" fails below the threshold. -/
theorem C5_counterexample :
    (∃ i : Fin twinInventory.length, ∃ j : Fin twinInventory.length, i ≠ j ∧
      eqScorer (pyStem "zz".data) (twinInventory.get i).name_without_ext
        = bestScoreOf eqScorer (pyStem "zz".data)
            (twinInventory.map (·.name_without_ext)) ∧
      eqScorer (pyStem "zz".data) (twinInventory.get j).name_without_ext
        = bestScoreOf eqScorer (pyStem "zz".data)
            (twinInventory.map (·.name_without_ext))) ∧
    find_best_match eqScorer "zz".data (some twinInventory) = none := by
  decide

/-- C5 amended: when two or more entries attain the maximum score *and*
that score clears the threshold 60, `find_best_match` returns the path of
the first entry attaining it (stable in inventory order, including equal
stems). -/
theorem C5_first_of_ties (scorer : Scorer) (filename : Str)
    (fl : List FileRecord) (i : Nat) (hi : i < fl.length)
    (hattain : scorer (pyStem filename) (fl[i].name_without_ext)
      = bestScoreOf scorer (pyStem filename) (fl.map (·.name_without_ext)))
    (hfirst : ∀ k (hk : k < i), scorer (pyStem filename) (fl[k].name_without_ext)
      < bestScoreOf scorer (pyStem filename) (fl.map (·.name_without_ext)))
    (htwo : ∃ j, ∃ hj : j < fl.length, j ≠ i ∧
      scorer (pyStem filename) (fl[j].name_without_ext)
        = bestScoreOf scorer (pyStem filename) (fl.map (·.name_without_ext)))
    (hthr : bestScoreOf scorer (pyStem filename) (fl.map (·.name_without_ext)) > 60) :
    find_best_match scorer filename (some fl) = some fl[i].path := by
  have hne : fl ≠ [] := by
    intro hcontra
    rw [hcontra] at hi
    simp at hi
  have hi2 : i < (fl.map (·.name_without_ext)).length := by simpa using hi
  have key : (fl.map (·.name_without_ext))[i] = fl[i].name_without_ext :=
    List.getElem_map _
  have hmax : ∀ k (hk2 : k < (fl.map (·.name_without_ext)).length),
      scorer (pyStem filename) ((fl.map (·.name_without_ext))[k])
        ≤ scorer (pyStem filename) ((fl.map (·.name_without_ext))[i]) := by
    intro k hk2
    rw [key]
    rw [hattain]
    exact le_bestScoreOf _ _ _ _ (List.getElem_mem hk2)
  have hfirst2 : ∀ k (hk2 : k < i) (hk4 : k < (fl.map (·.name_without_ext)).length),
      scorer (pyStem filename) ((fl.map (·.name_without_ext))[k])
        < scorer (pyStem filename) ((fl.map (·.name_without_ext))[i]) := by
    intro k hk2 hk4
    have hk3 : k < fl.length := Nat.lt_trans hk2 hi
    have e1 : (fl.map (·.name_without_ext))[k] = fl[k].name_without_ext :=
      List.getElem_map _
    rw [e1, key, hattain]
    exact hfirst k hk2
  have hEO := extractOne_first scorer (pyStem filename)
    (fl.map (·.name_without_ext)) i hi2 hmax
    (fun k hk2 => hfirst2 k hk2 (Nat.lt_trans hk2 hi2))
  have hidx : indexOfStr ((fl.map (·.name_without_ext))[i]) (fl.map (·.name_without_ext)) = i := by
    apply indexOfStr_getElem _ i hi2
    intro k hk2 heq
    have hk4 : k < (fl.map (·.name_without_ext)).length := Nat.lt_trans hk2 hi2
    rw [List.getElem?_eq_getElem hk4, Option.some.injEq] at heq
    have h5 := hfirst2 k hk2 hk4
    rw [heq] at h5
    exact Nat.lt_irrefl _ h5
  simp only [find_best_match, if_neg hne, hEO]
  rw [if_pos (by rw [key, hattain]; exact hthr)]
  rw [hidx]
  rw [List.get?_eq_getElem?, List.getElem?_eq_getElem hi]
  rfl

/-- C5 witness for the amended claim: both `twinInventory` entries score
100 for candidate `aa`; the first entry's path is returned. -/
theorem C5_first_of_ties_witness :
    find_best_match eqScorer "aa".data (some twinInventory)
      = some ((twinInventory.get ⟨0, by decide⟩).path) :=
  C5_first_of_ties eqScorer "aa".data twinInventory 0 (by decide) (by decide)
    (fun k hk => absurd hk (Nat.not_lt_zero k))
    ⟨1, by decide, by decide, by decide⟩ (by decide)

/-! ## C8 -/

/-- C8: `scan_files_directory` degrades to the absent inventory (`none`)
when the root directory does not exist, when an I/O error occurs during
the walk, and when the walk finds no regular file; as a pure function of
the filesystem value it can neither raise to its caller nor mutate the
filesystem. -/
theorem C8_scan_never_raises (fs : FileSystem) :
    (fs.dirExists = false → scan_files_directory fs = none) ∧
    (fs.walkError = true → scan_files_directory fs = none) ∧
    (fs.entries.filter (·.isFile) = [] → scan_files_directory fs = none) := by
  refine ⟨?_, ?_, ?_⟩
  · intro h
    simp [scan_files_directory, h]
  · intro h
    by_cases hd : fs.dirExists <;> simp [scan_files_directory, h, hd]
  · intro h
    by_cases hd : fs.dirExists
    · by_cases hw : fs.walkError <;> simp [scan_files_directory, h, hd, hw]
    · simp [scan_files_directory, hd]

/-- C8 witness: the three degradation cases at concrete filesystem
values. -/
theorem C8_scan_never_raises_witness :
    scan_files_directory ⟨false, false, [⟨"public/files/x.pdf".data, true⟩]⟩ = none ∧
    scan_files_directory ⟨true, true, [⟨"public/files/x.pdf".data, true⟩]⟩ = none ∧
    scan_files_directory ⟨true, false, [⟨"public/files".data, false⟩]⟩ = none :=
  ⟨(C8_scan_never_raises _).1 rfl, (C8_scan_never_raises _).2.1 rfl,
    (C8_scan_never_raises _).2.2 (by decide)⟩

/-! ## C3 and C9: the extractor -/

theorem extract_eq (scorer : Scorer) (fs : FileSystem) (text : Str) :
    extract_markdown_links scorer fs text
      = ((findLinks text).filter (fun p => ¬ isHttpUrl p.2)).map
          (mkLink scorer (scan_files_directory fs)) := by
  simp only [extract_markdown_links]
  by_cases h : findLinks text = []
  · simp [h]
  · simp [h]

theorem linkRender_inj {t u t' u' : Str} (htc : ∀ c ∈ t, c ≠ ']')
    (htc' : ∀ c ∈ t', c ≠ ']') (h : linkRender t u = linkRender t' u') :
    t = t' ∧ u = u' := by
  simp only [linkRender, List.cons.injEq, true_and] at h
  have e1 := takeWhile_append_cons (p := fun c => decide (c ≠ ']'))
    (t := t) (x := ']') (w := '(' :: (u ++ [')']))
    (fun c hc => by simpa using htc c hc) (by simp)
  have e2 := takeWhile_append_cons (p := fun c => decide (c ≠ ']'))
    (t := t') (x := ']') (w := '(' :: (u' ++ [')']))
    (fun c hc => by simpa using htc' c hc) (by simp)
  have ht : t = t' := by rw [← e1.1, ← e2.1, h]
  subst ht
  have h2 := List.append_cancel_left h
  simp only [List.cons.injEq, true_and] at h2
  exact ⟨rfl, List.append_cancel_right h2⟩

/-- C9: a markdown link whose URL starts with `http://` or `https://` is
excluded from extraction: no extracted record's original link is that
link, whatever the filesystem and scorer. -/
theorem C9_http_links_excluded (scorer : Scorer) (fs : FileSystem) (text t u : Str)
    (hmem : (t, u) ∈ findLinks text) (hhttp : isHttpUrl u = true) :
    ∀ r ∈ extract_markdown_links scorer fs text, r.original_link ≠ linkRender t u := by
  intro r hr heq
  rw [extract_eq] at hr
  obtain ⟨⟨t', u'⟩, hmem', hrEq⟩ := List.mem_map.mp hr
  have hf := List.mem_filter.mp hmem'
  have hhttp' : isHttpUrl u' = false := by simpa using hf.2
  have holink : r.original_link = linkRender t' u' := by rw [← hrEq]; rfl
  rw [holink] at heq
  obtain ⟨-, -, htc', -⟩ := findLinks_mem hf.1
  obtain ⟨-, -, htc, -⟩ := findLinks_mem hmem
  obtain ⟨-, huEq⟩ := linkRender_inj htc' htc heq
  rw [huEq] at hhttp'
  rw [hhttp] at hhttp'
  simp at hhttp'

/-- C3: every extracted record derives its candidate filename from the
URL's last path segment with fallback to the raw link text when that
segment is empty or has no `.`; the candidate is percent-decoded before it
reaches the fuzzy resolver; the record's `filename` field is the decoded
candidate's first `.`-delimited segment; and the record's URL is the
file-serving reference on a match and the original URL otherwise. -/
theorem C3_candidate_and_url (scorer : Scorer) (fs : FileSystem) (text : Str) :
    ∀ r ∈ extract_markdown_links scorer fs text, ∃ t u,
      (t, u) ∈ findLinks text ∧ isHttpUrl u = false ∧ u ≠ [] ∧
      r.text = t ∧ r.original_link = linkRender t u ∧
      r.filename = (unquote (if pathName u = [] ∨ '.' ∉ pathName u then t
        else pathName u)).takeWhile (fun c => c ≠ '.') ∧
      r.fuzzy_matched = (find_best_match scorer
        (unquote (if pathName u = [] ∨ '.' ∉ pathName u then t else pathName u))
        (scan_files_directory fs)).isSome ∧
      r.url = (match find_best_match scorer
          (unquote (if pathName u = [] ∨ '.' ∉ pathName u then t else pathName u))
          (scan_files_directory fs) with
        | some p => gradioFilePre ++ p
        | none => u) := by
  intro r hr
  rw [extract_eq] at hr
  obtain ⟨⟨t, u⟩, hmem', hrEq⟩ := List.mem_map.mp hr
  have hf := List.mem_filter.mp hmem'
  have hhttp : isHttpUrl u = false := by simpa using hf.2
  obtain ⟨ht, hu, htc, huc⟩ := findLinks_mem hf.1
  refine ⟨t, u, hf.1, hhttp, hu, ?_, ?_, ?_, ?_, ?_⟩ <;>
    rw [← hrEq] <;>
    simp only [mkLink, if_pos hu]

/-- An absent scan root (scan yields the absent inventory). -/
def fsAbsent : FileSystem := ⟨false, false, []⟩

/-- A one-file scan root. -/
def fsReport : FileSystem :=
  ⟨true, false, [⟨"public/files/report_final.pdf".data, true⟩]⟩

/-- C3 witness: the record extracted from `See [doc](files/report.pdf)`
against `fsReport`, instantiating every clause of the characterization. -/
theorem C3_candidate_and_url_witness :
    ∃ t u, (t, u) ∈ findLinks "See [doc](files/report.pdf)".data ∧
      isHttpUrl u = false ∧ u ≠ [] ∧
      (mkLink eqScorer (scan_files_directory fsReport)
        ("doc".data, "files/report.pdf".data)).text = t ∧
      (mkLink eqScorer (scan_files_directory fsReport)
        ("doc".data, "files/report.pdf".data)).original_link = linkRender t u ∧
      (mkLink eqScorer (scan_files_directory fsReport)
        ("doc".data, "files/report.pdf".data)).filename
        = (unquote (if pathName u = [] ∨ '.' ∉ pathName u then t
            else pathName u)).takeWhile (fun c => c ≠ '.') ∧
      (mkLink eqScorer (scan_files_directory fsReport)
        ("doc".data, "files/report.pdf".data)).fuzzy_matched
        = (find_best_match eqScorer
            (unquote (if pathName u = [] ∨ '.' ∉ pathName u then t else pathName u))
            (scan_files_directory fsReport)).isSome ∧
      (mkLink eqScorer (scan_files_directory fsReport)
        ("doc".data, "files/report.pdf".data)).url
        = (match find_best_match eqScorer
            (unquote (if pathName u = [] ∨ '.' ∉ pathName u then t else pathName u))
            (scan_files_directory fsReport) with
          | some p => gradioFilePre ++ p
          | none => u) :=
  C3_candidate_and_url eqScorer fsReport "See [doc](files/report.pdf)".data
    (mkLink eqScorer (scan_files_directory fsReport)
      ("doc".data, "files/report.pdf".data))
    (by decide)

/-- C9 witness: in a message with one `https` link and one local link, the
`https` link is never the original link of any extracted record. -/
theorem C9_http_links_excluded_witness :
    ("a".data, "https://x.io/f.pdf".data)
        ∈ findLinks "[a](https://x.io/f.pdf) and [b](f.pdf)".data ∧
    isHttpUrl "https://x.io/f.pdf".data = true ∧
    ∀ r ∈ extract_markdown_links eqScorer fsAbsent
        "[a](https://x.io/f.pdf) and [b](f.pdf)".data,
      r.original_link ≠ linkRender "a".data "https://x.io/f.pdf".data :=
  ⟨by decide, by decide,
    C9_http_links_excluded eqScorer fsAbsent _ _ _ (by decide) (by decide)⟩

/-! ## C7: the turn controller's error handling -/

/-- C7: when the agent stream or the rewrite pipeline raises — after any
number of chunks were already appended — `bot` catches it, replaces the
assistant entry's content wholesale with the fixed apology string
(discarding the partial streamed content), and republishes the turn
exactly once. -/
theorem C7_error_apology_once (scorer : Scorer) (fs : FileSystem)
    (history : List ChatMsg) (st : AgentStream) (herr : st.raisesErr = true) :
    botYields scorer fs history st
      = (List.range st.chunks.length).map
          (fun k => history ++ [⟨assistantRole, (st.chunks.take (k + 1)).flatten⟩])
        ++ [history ++ [⟨assistantRole, apologyMsg⟩]] ∧
    (botYields scorer fs history st).length = st.chunks.length + 1 ∧
    (botYields scorer fs history st).getLast?
      = some (history ++ [⟨assistantRole, apologyMsg⟩]) := by
  refine ⟨by simp only [botYields, if_pos herr], ?_, ?_⟩
  · simp [botYields, herr]
  · simp only [botYields, if_pos herr]
    exact List.getLast?_concat _

/-- C7 witness: a stream that raises after one chunk; the final published
turn carries only the apology, not the partial chunk. -/
theorem C7_error_apology_once_witness :
    botYields eqScorer fsAbsent [⟨"user".data, "hi".data⟩] ⟨["Hello ".data], true⟩
      = (List.range 1).map (fun k =>
          [⟨"user".data, "hi".data⟩]
            ++ [⟨assistantRole, (["Hello ".data].take (k + 1)).flatten⟩])
        ++ [[⟨"user".data, "hi".data⟩] ++ [⟨assistantRole, apologyMsg⟩]] ∧
    (botYields eqScorer fsAbsent [⟨"user".data, "hi".data⟩] ⟨["Hello ".data], true⟩).length
      = 1 + 1 ∧
    (botYields eqScorer fsAbsent [⟨"user".data, "hi".data⟩]
        ⟨["Hello ".data], true⟩).getLast?
      = some ([⟨"user".data, "hi".data⟩] ++ [⟨assistantRole, apologyMsg⟩]) :=
  C7_error_apology_once eqScorer fsAbsent [⟨"user".data, "hi".data⟩]
    ⟨["Hello ".data], true⟩ rfl

/-! ## C4 and C10: the streaming client's failure surface -/

theorem streamBody_yields_one (env : AgentEnv) :
    ∃ c, streamBody env = ⟨[c], none⟩ := by
  rcases hmc : env.messageCreate with e | u
  · exact ⟨errPre ++ e, by simp [streamBody, hmc]⟩
  · rcases hga : env.getAgent with e | a
    · exact ⟨errPre ++ e, by simp [streamBody, hmc, hga]⟩
    · rcases hrr : env.runResult with e | run
      · exact ⟨errPre ++ e, by simp [streamBody, hmc, hga, hrr]⟩
      · by_cases hs : run.status = "failed".data
        · exact ⟨errPre ++ run.last_error, by simp [streamBody, hmc, hga, hrr, hs]⟩
        · rcases hlm : env.listMessages with e | msgs
          · exact ⟨errPre ++ e, by simp [streamBody, hmc, hga, hrr, hs, hlm]⟩
          · rcases hla : latestAssistant msgs with _ | rres
            · exact ⟨noResponseMsg, by simp [streamBody, hmc, hga, hrr, hs, hlm, hla]⟩
            · exact ⟨rres, by simp [streamBody, hmc, hga, hrr, hs, hlm, hla]⟩

theorem send_streaming_shape (env : AgentEnv) (tid : Option Str) :
    (∃ e, send_message_streaming env tid = ⟨[], some e⟩) ∨
    (∃ c, send_message_streaming env tid = ⟨[c], none⟩) := by
  by_cases htid : tid.getD [] ≠ []
  · right
    obtain ⟨c, hc⟩ := streamBody_yields_one env
    exact ⟨c, by simp [send_message_streaming, htid, hc]⟩
  · rcases hct : env.currentThread with _ | t
    · rcases htc : env.threadCreate with e | ntid
      · left
        exact ⟨e, by simp [send_message_streaming, htid, hct, htc]⟩
      · by_cases hz : ntid = []
        · right
          exact ⟨noStartMsg, by simp [send_message_streaming, htid, hct, htc, hz]⟩
        · right
          obtain ⟨c, hc⟩ := streamBody_yields_one env
          exact ⟨c, by simp [send_message_streaming, htid, hct, htc, hz, hc]⟩
    · right
      obtain ⟨c, hc⟩ := streamBody_yields_one env
      exact ⟨c, by simp [send_message_streaming, htid, hct, hc]⟩

/-- A backend state in which the agent run reports failure while
everything else succeeds. -/
def envRunFailed : AgentEnv :=
  ⟨some "t1".data, Except.ok "t2".data, Except.ok (), Except.ok "agent".data,
    Except.ok ⟨"failed".data, "boom".data⟩, Except.ok []⟩

/-- A backend state with no current thread in which thread creation
raises. -/
def envCreateRaises : AgentEnv :=
  ⟨none, Except.error "ConnectionError".data, Except.ok (),
    Except.ok "agent".data, Except.ok ⟨"completed".data, []⟩, Except.ok []⟩

/-- A backend state in which everything succeeds and an assistant reply is
stored. -/
def envAllOk : AgentEnv :=
  ⟨some "t1".data, Except.ok "t2".data, Except.ok (), Except.ok "agent".data,
    Except.ok ⟨"completed".data, []⟩,
    Except.ok [⟨"assistant".data, ["The answer.".data]⟩]⟩

/-- C4 counterexample: when the run reports failure, the stream does not
surface a terminating error — it terminates normally (`raised = none`)
after delivering the failure as one ordinary text chunk. -/
theorem C4_counterexample :
    envRunFailed.runResult = Except.ok ⟨"failed".data, "boom".data⟩ ∧
    send_message_to_agent_streaming envRunFailed
      = ⟨[errPre ++ "boom".data], none⟩ := by
  constructor
  · rfl
  · decide

/-- C4 amended: a failure never produces a silent empty stream — the call
either raises before yielding anything (thread-creation failure, which
happens outside the `try`) or terminates normally with exactly one chunk
(carrying the reply or an error message). -/
theorem C4_never_silent_empty (env : AgentEnv) (tid : Option Str) :
    (∃ e, send_message_streaming env tid = ⟨[], some e⟩) ∨
    (∃ c, send_message_streaming env tid = ⟨[c], none⟩) :=
  send_streaming_shape env tid

/-- C10 counterexample: a call that must create a thread and whose
creation raises yields zero chunks, not exactly one. -/
theorem C10_counterexample :
    send_message_to_agent_streaming envCreateRaises
      = ⟨[], some "ConnectionError".data⟩ := by
  decide

/-- C10 amended: the stream yields at most one chunk, and exactly one
whenever it terminates without raising; the sole raising path (thread
creation failure) yields zero. -/
theorem C10_at_most_one_chunk (env : AgentEnv) (tid : Option Str) :
    (send_message_streaming env tid).chunks.length ≤ 1 ∧
    ((send_message_streaming env tid).raised = none →
      (send_message_streaming env tid).chunks.length = 1) := by
  rcases send_streaming_shape env tid with ⟨e, he⟩ | ⟨c, hc⟩
  · rw [he]
    exact ⟨by simp, by intro h; simp at h⟩
  · rw [hc]
    exact ⟨by simp, by intro h; simp⟩

/-- C10 witness: the all-success backend delivers the whole reply as
exactly one chunk. -/
theorem C10_at_most_one_chunk_witness :
    (send_message_streaming envAllOk none).chunks.length ≤ 1 ∧
    (send_message_streaming envAllOk none).chunks.length = 1 :=
  ⟨(C10_at_most_one_chunk envAllOk none).1,
    (C10_at_most_one_chunk envAllOk none).2 (by decide)⟩

/-! ## C1: rewrite structure and anchor id uniqueness -/

theorem anchorId_inj (i j : Nat) (h : i ≠ j) : anchorId i ≠ anchorId j := by
  intro heq
  apply h
  apply natRepr_injective
  exact List.append_cancel_left heq

theorem cardsFrom_length : ∀ (links : List ExtractedLink) (i : Nat),
    (cardsFrom i links).length = links.length := by
  intro links
  induction links with
  | nil => intro i; rfl
  | cons l ls ih =>
    intro i
    simp only [cardsFrom, List.length_cons, ih]

theorem cardsFrom_get : ∀ (links : List ExtractedLink) (i k : Nat)
    (hk : k < links.length) (hk2 : k < (cardsFrom i links).length),
    (cardsFrom i links).get ⟨k, hk2⟩ = cardHtml (i + k) (links.get ⟨k, hk⟩) := by
  intro links
  induction links with
  | nil => intro i k hk; simp at hk
  | cons l ls ih =>
    intro i k hk hk2
    cases k with
    | zero => rfl
    | succ k2 =>
      have hk3 : k2 < ls.length := by simpa using Nat.lt_of_succ_lt_succ hk
      have hk4 : k2 < (cardsFrom (i + 1) ls).length := by
        rw [cardsFrom_length]; exact hk3
      have step : (cardsFrom i (l :: ls)).get ⟨k2 + 1, hk2⟩
          = (cardsFrom (i + 1) ls).get ⟨k2, hk4⟩ := rfl
      rw [step, ih (i + 1) k2 hk3 hk4]
      congr 1
      omega

/-- C1: the rewrite step appends the card container once, after all inline
replacements, at the end of the message; it emits exactly one card per
link (card `k` built from the `k`-th link, carrying the id
`source-card-k`); each inline step replaces the first remaining occurrence
of the link's exact original markdown substring with an anchor referencing
the same `source-card-k`; and the anchor ids are pairwise distinct. -/
theorem C1_rewrite_cards (msg : Str) (links : List ExtractedLink)
    (hne : links ≠ []) :
    rewriteMessage msg links = updatedMessage msg links ++ cards_html links ∧
    cards_html links = "\n\n<div class=\"source-cards-container\">".data
      ++ (cardsFrom 0 links).flatten ++ "</div>".data ∧
    (cardsFrom 0 links).length = links.length ∧
    (∀ k (hk : k < links.length) (hk2 : k < (cardsFrom 0 links).length),
      (cardsFrom 0 links).get ⟨k, hk2⟩ = cardHtml k (links.get ⟨k, hk⟩)) ∧
    (∀ k (l : ExtractedLink), ∃ post,
      cardHtml k l = "<div class=\"source-card\" id=\"".data ++ anchorId k ++ post) ∧
    (∀ k (t : Str), ∃ post,
      anchorLink k t = "<a href=\"#".data ++ anchorId k ++ post) ∧
    (∀ m k (l : ExtractedLink) (ls : List ExtractedLink),
      replaceLinksFrom m k (l :: ls)
        = replaceLinksFrom (replaceFirst m l.original_link (anchorLink k l.text)) (k + 1) ls) ∧
    (∀ i j, i ≠ j → anchorId i ≠ anchorId j) := by
  refine ⟨rfl, rfl, cardsFrom_length links 0, ?_, ?_, ?_, ?_, anchorId_inj⟩
  · intro k hk hk2
    have h := cardsFrom_get links 0 k hk hk2
    simpa using h
  · intro k l
    refine ⟨"\">".data ++ "<div class=\"card-icon\">".data ++ cardIcon
      ++ "</div><div class=\"card-title\">".data ++ escapeHtml l.filename
      ++ "</div><a href=\"".data ++ escapeHtml l.url
      ++ "\" class=\"card-link\" target=\"_blank\">Download</a></div>".data, ?_⟩
    simp [cardHtml]
  · intro k t
    refine ⟨"\" onclick=\"document.getElementById(\x27".data ++ anchorId k
      ++ "\x27).scrollIntoView(\x7bbehavior: \x27smooth\x27\x7d); return false;\">".data
      ++ escapeHtml t ++ "</a>".data, ?_⟩
    simp [anchorLink]
  · intro m k l ls
    rfl

/-- C1 witness: a concrete two-link sequence (duplicate text/URL pairs)
run through the rewrite, projecting the one-card-per-link count. -/
theorem C1_rewrite_cards_witness :
    ([mkLink eqScorer none ("a".data, "u.pdf".data),
      mkLink eqScorer none ("a".data, "u.pdf".data)] : List ExtractedLink) ≠ [] ∧
    (cardsFrom 0 [mkLink eqScorer none ("a".data, "u.pdf".data),
      mkLink eqScorer none ("a".data, "u.pdf".data)]).length
      = ([mkLink eqScorer none ("a".data, "u.pdf".data),
          mkLink eqScorer none ("a".data, "u.pdf".data)] : List ExtractedLink).length ∧
    rewriteMessage "[a](u.pdf) and [a](u.pdf)".data
        [mkLink eqScorer none ("a".data, "u.pdf".data),
         mkLink eqScorer none ("a".data, "u.pdf".data)]
      = updatedMessage "[a](u.pdf) and [a](u.pdf)".data
          [mkLink eqScorer none ("a".data, "u.pdf".data),
           mkLink eqScorer none ("a".data, "u.pdf".data)]
        ++ cards_html [mkLink eqScorer none ("a".data, "u.pdf".data),
             mkLink eqScorer none ("a".data, "u.pdf".data)] :=
  ⟨by decide,
    (C1_rewrite_cards "[a](u.pdf) and [a](u.pdf)".data
      [mkLink eqScorer none ("a".data, "u.pdf".data),
       mkLink eqScorer none ("a".data, "u.pdf".data)] (by decide)).2.2.1,
    (C1_rewrite_cards "[a](u.pdf) and [a](u.pdf)".data
      [mkLink eqScorer none ("a".data, "u.pdf".data),
       mkLink eqScorer none ("a".data, "u.pdf".data)] (by decide)).1⟩

/-! ## C6: re-extraction on rewritten output -/

set_option maxRecDepth 100000 in
/-- C6 counterexample: for the message `[[x](u)](v)` (one extracted link
whose link text `[x` contains `[`), the anchor's escaped text recombines
with the residual `](v)` into a fresh non-http markdown match, so the
second extraction yields one link, not zero. -/
theorem C6_counterexample :
    (extract_markdown_links eqScorer fsAbsent "[[x](u)](v)".data).length = 1 ∧
    (extract_markdown_links eqScorer fsAbsent
      (rewriteMessage "[[x](u)](v)".data
        (extract_markdown_links eqScorer fsAbsent "[[x](u)](v)".data))).length = 1 := by
  constructor
  · decide
  · decide

/-- A structured message: plain text segments interleaved with markdown
links.  Used to state the amended idempotence claim. -/
inductive Seg where
  | plain (s : Str)
  | link (t u : Str)
deriving DecidableEq

/-- Render one segment to text. -/
def renderSeg : Seg → Str
  | .plain s => s
  | .link t u => linkRender t u

/-- Render a structured message to text. -/
def renderMsg (m : List Seg) : Str := (m.map renderSeg).flatten

/-- The links of a structured message, in order. -/
def linksOf (m : List Seg) : List (Str × Str) :=
  m.filterMap (fun sg =>
    match sg with
    | .plain _ => none
    | .link t u => some (t, u))

/-- Well-formedness of a segment: plain text carries no `[`; a link has
non-empty text and URL, its text avoids `[`, `]`, `%`, its URL avoids
`[`, `)`, `%`, and the URL is not external. -/
def SegOK : Seg → Prop
  | .plain s => '[' ∉ s
  | .link t u => t ≠ [] ∧ u ≠ [] ∧ (∀ c ∈ t, c ≠ '[' ∧ c ≠ ']' ∧ c ≠ '%')
      ∧ (∀ c ∈ u, c ≠ '[' ∧ c ≠ ')' ∧ c ≠ '%') ∧ isHttpUrl u = false

instance : DecidablePred SegOK := fun sg =>
  match sg with
  | .plain s => decidable_of_iff ('[' ∉ s) Iff.rfl
  | .link t u => decidable_of_iff (t ≠ [] ∧ u ≠ [] ∧
      (∀ c ∈ t, c ≠ '[' ∧ c ≠ ']' ∧ c ≠ '%')
      ∧ (∀ c ∈ u, c ≠ '[' ∧ c ≠ ')' ∧ c ≠ '%') ∧ isHttpUrl u = false) Iff.rfl

theorem renderMsg_nil : renderMsg [] = [] := rfl

theorem renderMsg_cons (sg : Seg) (rest : List Seg) :
    renderMsg (sg :: rest) = renderSeg sg ++ renderMsg rest := by
  simp [renderMsg]

theorem findLinks_renderMsg (m : List Seg) (hOK : ∀ sg ∈ m, SegOK sg) :
    findLinks (renderMsg m) = linksOf m := by
  induction m with
  | nil => rfl
  | cons sg rest ih =>
    have hOKr : ∀ x ∈ rest, SegOK x := fun x hx => hOK x (List.mem_cons_of_mem sg hx)
    cases sg with
    | plain s =>
      have hs : '[' ∉ s := hOK _ (List.mem_cons_self _ _)
      rw [renderMsg_cons]
      show findLinks (s ++ renderMsg rest) = linksOf (Seg.plain s :: rest)
      rw [findLinks_append_left s _ (fun c hc heq => hs (heq ▸ hc))]
      rw [ih hOKr]
      rfl
    | link t u =>
      obtain ⟨ht, hu, htc, huc⟩ := hOK _ (List.mem_cons_self _ _)
      rw [renderMsg_cons]
      show findLinks (linkRender t u ++ renderMsg rest) = linksOf (Seg.link t u :: rest)
      rw [findLinks_link_cons t u _ ht (fun c hc => (htc c hc).2.1)
        hu (fun c hc => (huc.1 c hc).2.1)]
      rw [ih hOKr]
      rfl

theorem linksOf_mem {m : List Seg} {t u : Str} (h : (t, u) ∈ linksOf m) :
    Seg.link t u ∈ m := by
  simp only [linksOf, List.mem_filterMap] at h
  obtain ⟨sg, hsg, heq⟩ := h
  cases sg with
  | plain s => simp at heq
  | link t' u' =>
    simp only [Option.some.injEq, Prod.mk.injEq] at heq
    obtain ⟨h1, h2⟩ := heq
    rw [← h1, ← h2]
    exact hsg

theorem extract_renderMsg (scorer : Scorer) (fs : FileSystem) (m : List Seg)
    (hOK : ∀ sg ∈ m, SegOK sg) :
    extract_markdown_links scorer fs (renderMsg m)
      = (linksOf m).map (mkLink scorer (scan_files_directory fs)) := by
  rw [extract_eq, findLinks_renderMsg m hOK]
  congr 1
  apply List.filter_eq_self.mpr
  intro p hp
  obtain ⟨t, u⟩ := p
  have hlink := linksOf_mem hp
  obtain ⟨-, -, -, -, hhttp⟩ := hOK _ hlink
  simpa using hhttp

theorem isPrefixOf_self_append (l r : Str) : l.isPrefixOf (l ++ r) = true :=
  List.isPrefixOf_iff_prefix.mpr (List.prefix_append l r)

theorem replaceFirst_of_pre {s old new : Str} (h : old.isPrefixOf s = true) :
    replaceFirst s old new = new ++ s.drop old.length := by
  rw [replaceFirst.eq_def, if_pos h]

theorem replaceFirst_cons_not_pre {c : Char} {s old new : Str}
    (h : old.isPrefixOf (c :: s) = false) :
    replaceFirst (c :: s) old new = c :: replaceFirst s old new := by
  rw [replaceFirst.eq_def, if_neg (by rw [h]; simp)]

theorem replaceFirst_self_append (rest old new : Str) :
    replaceFirst (old ++ rest) old new = new ++ rest := by
  rw [replaceFirst_of_pre (isPrefixOf_self_append old rest), List.drop_left]

theorem replaceFirst_skip {A : Str} (hA : ∀ c ∈ A, c ≠ '[') (B o new : Str) :
    replaceFirst (A ++ B) ('[' :: o) new = A ++ replaceFirst B ('[' :: o) new := by
  induction A with
  | nil => simp
  | cons a A2 ih =>
    have ha : a ≠ '[' := hA a (List.mem_cons_self a A2)
    have hnp : ('[' :: o).isPrefixOf (a :: (A2 ++ B)) = false := by
      simp only [List.isPrefixOf, Bool.and_eq_false_iff]
      left
      simp only [beq_eq_false_iff_ne, ne_eq]
      intro heq
      exact ha heq.symm
    rw [List.cons_append, replaceFirst_cons_not_pre hnp,
      ih (fun c hc => hA c (List.mem_cons_of_mem a hc))]
    rfl

/-! ### Characters appearing in the generated fragments -/

theorem mem_natReprAux {c : Char} : ∀ {fuel n : Nat}, c ∈ natReprAux fuel n →
    ∃ d, d < 10 ∧ c = digitChar d := by
  intro fuel
  induction fuel with
  | zero => intro n h; simp [natReprAux] at h
  | succ fuel ih =>
    intro n h
    by_cases hn : n < 10
    · simp only [natReprAux, if_pos hn, List.mem_singleton] at h
      exact ⟨n, hn, h⟩
    · simp only [natReprAux, if_neg hn, List.mem_append, List.mem_singleton] at h
      rcases h with h | h
      · exact ih h
      · exact ⟨n % 10, Nat.mod_lt n (by omega), h⟩

theorem natRepr_no_bracket (n : Nat) : '[' ∉ natRepr n := by
  intro h
  obtain ⟨d, hd, hc⟩ := mem_natReprAux h
  have hdt := digitChar_toNat d hd
  rw [← hc] at hdt
  have h91 : ('[' : Char).toNat = 91 := by decide
  omega

theorem anchorId_no_bracket (k : Nat) : '[' ∉ anchorId k := by
  intro h
  rcases List.mem_append.mp h with h | h
  · exact absurd h (by decide)
  · exact natRepr_no_bracket k h

theorem mem_escChar_bracket (a : Char) (h : '[' ∈ escChar a) : a = '[' := by
  by_cases h1 : a = '&'
  · subst h1; exact absurd h (by decide)
  · by_cases h2 : a = '<'
    · subst h2; exact absurd h (by decide)
    · by_cases h3 : a = '>'
      · subst h3; exact absurd h (by decide)
      · by_cases h4 : a = '\x22'
        · subst h4; exact absurd h (by decide)
        · by_cases h5 : a = '\x27'
          · subst h5; exact absurd h (by decide)
          · simp only [escChar, if_neg h1, if_neg h2, if_neg h3, if_neg h4, if_neg h5,
              List.mem_singleton] at h
            exact h.symm

theorem escapeHtml_no_bracket {s : Str} (hs : '[' ∉ s) : '[' ∉ escapeHtml s := by
  intro h
  obtain ⟨a, ha, hin⟩ := List.mem_flatMap.mp h
  rw [mem_escChar_bracket a hin] at ha
  exact hs ha

theorem anchorLink_no_bracket {k : Nat} {t : Str} (ht : '[' ∉ t) :
    ∀ c ∈ anchorLink k t, c ≠ '[' := by
  intro c hc heq
  subst heq
  simp only [anchorLink, List.mem_append] at hc
  rcases hc with ((((((h | h) | h) | h) | h) | h) | h)
  · revert h; decide
  · exact anchorId_no_bracket k h
  · revert h; decide
  · exact anchorId_no_bracket k h
  · revert h; decide
  · exact escapeHtml_no_bracket ht h
  · revert h; decide



/-- The partially rewritten rendering: links whose running index (starting
at `idx`) is below `j` have been replaced by their anchors, the rest are
still markdown. -/
def renderMixAux (j : Nat) (idx : Nat) : List Seg → Str
  | [] => []
  | .plain s :: rest => s ++ renderMixAux j idx rest
  | .link t u :: rest =>
    (if idx < j then anchorLink idx t else linkRender t u) ++ renderMixAux j (idx + 1) rest

theorem renderMixAux_le (m : List Seg) : ∀ j idx, j ≤ idx →
    renderMixAux j idx m = renderMsg m := by
  induction m with
  | nil => intro j idx _; rfl
  | cons sg rest ih =>
    intro j idx hj
    cases sg with
    | plain s =>
      rw [renderMsg_cons]
      show s ++ renderMixAux j idx rest = renderSeg (Seg.plain s) ++ renderMsg rest
      rw [ih j idx hj]
      rfl
    | link t u =>
      rw [renderMsg_cons]
      show (if idx < j then anchorLink idx t else linkRender t u)
          ++ renderMixAux j (idx + 1) rest = renderSeg (Seg.link t u) ++ renderMsg rest
      rw [if_neg (by omega), ih j (idx + 1) (by omega)]
      rfl

theorem renderMix_step (m : List Seg) : ∀ (idx j : Nat) (t u : Str),
    (∀ sg ∈ m, SegOK sg) → idx ≤ j →
    (linksOf m).get? (j - idx) = some (t, u) →
    replaceFirst (renderMixAux j idx m) (linkRender t u) (anchorLink j t)
      = renderMixAux (j + 1) idx m := by
  induction m with
  | nil => intro idx j t u _ _ h; simp [linksOf] at h
  | cons sg rest ih =>
    intro idx j t u hOK hle hget
    have hOKr : ∀ x ∈ rest, SegOK x := fun x hx => hOK x (List.mem_cons_of_mem sg hx)
    cases sg with
    | plain s =>
      have hs : '[' ∉ s := hOK _ (List.mem_cons_self _ _)
      show replaceFirst (s ++ renderMixAux j idx rest) (linkRender t u) (anchorLink j t)
        = s ++ renderMixAux (j + 1) idx rest
      rw [show linkRender t u = '[' :: (t ++ ']' :: '(' :: (u ++ [')'])) from rfl]
      rw [replaceFirst_skip (fun c hc heq => hs (heq ▸ hc)) _ _ _]
      rw [show ('[' :: (t ++ ']' :: '(' :: (u ++ [')']))) = linkRender t u from rfl]
      rw [ih idx j t u hOKr hle hget]
    | link t2 u2 =>
      obtain ⟨ht2, hu2, htc2, huc2, hhttp2⟩ := hOK _ (List.mem_cons_self _ _)
      have hlinks : linksOf (Seg.link t2 u2 :: rest) = (t2, u2) :: linksOf rest := rfl
      rw [hlinks] at hget
      by_cases hji : j = idx
      · subst hji
        simp only [Nat.sub_self, List.get?_cons_zero, Option.some.injEq,
          Prod.mk.injEq] at hget
        obtain ⟨h1, h2⟩ := hget
        subst h1
        subst h2
        show replaceFirst ((if j < j then anchorLink j t2 else linkRender t2 u2)
            ++ renderMixAux j (j + 1) rest) (linkRender t2 u2) (anchorLink j t2)
          = (if j < j + 1 then anchorLink j t2 else linkRender t2 u2)
            ++ renderMixAux (j + 1) (j + 1) rest
        rw [if_neg (by omega), if_pos (by omega)]
        rw [replaceFirst_self_append]
        rw [renderMixAux_le rest j (j + 1) (by omega),
          renderMixAux_le rest (j + 1) (j + 1) (by omega)]
      · have hlt : idx < j := by omega
        have hsub : j - idx = (j - (idx + 1)) + 1 := by omega
        rw [hsub, List.get?_cons_succ] at hget
        have hta : '[' ∉ t2 := fun hc => (htc2 _ hc).1 rfl
        show replaceFirst ((if idx < j then anchorLink idx t2 else linkRender t2 u2)
            ++ renderMixAux j (idx + 1) rest) (linkRender t u) (anchorLink j t)
          = (if idx < j + 1 then anchorLink idx t2 else linkRender t2 u2)
            ++ renderMixAux (j + 1) (idx + 1) rest
        rw [if_pos hlt, if_pos (by omega)]
        rw [show linkRender t u = '[' :: (t ++ ']' :: '(' :: (u ++ [')'])) from rfl]
        rw [replaceFirst_skip (anchorLink_no_bracket hta) _ _ _]
        rw [show ('[' :: (t ++ ']' :: '(' :: (u ++ [')']))) = linkRender t u from rfl]
        rw [ih (idx + 1) j t u hOKr (by omega) hget]

theorem drop_cons_inv {α : Type} : ∀ (l : List α) (j : Nat) (x : α) (xs : List α),
    l.drop j = x :: xs → l.get? j = some x ∧ l.drop (j + 1) = xs := by
  intro l j
  induction j generalizing l with
  | zero =>
    intro x xs h
    simp only [List.drop_zero] at h
    subst h
    exact ⟨rfl, by simp⟩
  | succ j ih =>
    intro x xs h
    cases l with
    | nil => simp at h
    | cons y l2 =>
      rw [List.drop_succ_cons] at h
      obtain ⟨h1, h2⟩ := ih l2 x xs h
      exact ⟨h1, h2⟩

theorem replaceLinks_render (scorer : Scorer) (inv : Option (List FileRecord))
    (m : List Seg) (hOK : ∀ sg ∈ m, SegOK sg) :
    ∀ (ls : List (Str × Str)) (j : Nat), ls = (linksOf m).drop j →
    replaceLinksFrom (renderMixAux j 0 m) j (ls.map (mkLink scorer inv))
      = renderMixAux (j + ls.length) 0 m := by
  intro ls
  induction ls with
  | nil => intro j _; rfl
  | cons p ls2 ih =>
    intro j hdrop
    obtain ⟨t, u⟩ := p
    obtain ⟨hget, hdrop2⟩ := drop_cons_inv (linksOf m) j (t, u) ls2 hdrop.symm
    show replaceLinksFrom
        (replaceFirst (renderMixAux j 0 m)
          ((mkLink scorer inv (t, u)).original_link)
          (anchorLink j ((mkLink scorer inv (t, u)).text)))
        (j + 1) (ls2.map (mkLink scorer inv))
      = renderMixAux (j + (ls2.length + 1)) 0 m
    have holink : (mkLink scorer inv (t, u)).original_link = linkRender t u := rfl
    have htext : (mkLink scorer inv (t, u)).text = t := rfl
    rw [holink, htext]
    rw [renderMix_step m 0 j t u hOK (Nat.zero_le j) (by simpa using hget)]
    rw [ih (j + 1) hdrop2.symm]
    congr 1
    omega

theorem renderMixAux_no_bracket (m : List Seg) : ∀ j idx,
    idx + (linksOf m).length ≤ j → (∀ sg ∈ m, SegOK sg) →
    '[' ∉ renderMixAux j idx m := by
  induction m with
  | nil => intro j idx _ _ h; simp [renderMixAux] at h
  | cons sg rest ih =>
    intro j idx hlen hOK h
    have hOKr : ∀ x ∈ rest, SegOK x := fun x hx => hOK x (List.mem_cons_of_mem sg hx)
    cases sg with
    | plain s =>
      have hs : '[' ∉ s := hOK _ (List.mem_cons_self _ _)
      have hshape : renderMixAux j idx (Seg.plain s :: rest)
          = s ++ renderMixAux j idx rest := rfl
      rw [hshape] at h
      rcases List.mem_append.mp h with h | h
      · exact hs h
      · exact ih j idx (by simpa [linksOf] using hlen) hOKr h
    | link t u =>
      obtain ⟨-, -, htc, -, -⟩ := hOK _ (List.mem_cons_self _ _)
      have hta : '[' ∉ t := fun hc => (htc _ hc).1 rfl
      have hlen2 : (linksOf (Seg.link t u :: rest)).length
          = (linksOf rest).length + 1 := by simp [linksOf]
      have hlt : idx < j := by omega
      have hshape : renderMixAux j idx (Seg.link t u :: rest)
          = (if idx < j then anchorLink idx t else linkRender t u)
            ++ renderMixAux j (idx + 1) rest := rfl
      rw [hshape, if_pos hlt] at h
      rcases List.mem_append.mp h with h | h
      · exact anchorLink_no_bracket hta '[' h rfl
      · exact ih j (idx + 1) (by omega) hOKr h

theorem unquote_cons_ne {c : Char} (rest : Str) (hc : c ≠ '%') :
    unquote (c :: rest) = c :: unquote rest := by
  rw [unquote.eq_def]
  split
  · rename_i heq; simp at heq
  · rename_i a b r2 heq
    rw [List.cons.injEq] at heq
    exact absurd heq.1 hc
  · rename_i c2 r2 heq
    rw [List.cons.injEq] at heq
    rw [heq.1, heq.2]

theorem unquote_no_pct : ∀ (s : Str), '%' ∉ s → unquote s = s := by
  intro s
  induction s with
  | nil => intro _; rfl
  | cons c rest ih =>
    intro h
    have hc : c ≠ '%' := fun hcp => h (hcp ▸ List.mem_cons_self c rest)
    have hr : '%' ∉ rest := fun hm => h (List.mem_cons_of_mem c hm)
    rw [unquote_cons_ne rest hc, ih hr]

theorem splitSlash_cons (c : Char) (rest : Str) :
    splitSlash (c :: rest) = if c = '/' then [] :: splitSlash rest
      else match splitSlash rest with
        | [] => [[c]]
        | s :: ss => (c :: s) :: ss := rfl

theorem splitSlash_ne_nil (s : Str) : splitSlash s ≠ [] := by
  cases s with
  | nil => simp [splitSlash]
  | cons c rest =>
    rw [splitSlash_cons]
    by_cases hc : c = '/'
    · simp [hc]
    · rw [if_neg hc]
      cases hsr : splitSlash rest with
      | nil => simp [hsr]
      | cons s1 ss => simp [hsr]

theorem mem_splitSlash : ∀ (s piece : Str) (c : Char),
    piece ∈ splitSlash s → c ∈ piece → c ∈ s := by
  intro s
  induction s with
  | nil =>
    intro piece c hp hc
    simp [splitSlash] at hp
    rw [hp] at hc
    simp at hc
  | cons x rest ih =>
    intro piece c hp hc
    by_cases hx : x = '/'
    · rw [splitSlash_cons, if_pos hx] at hp
      rcases List.mem_cons.mp hp with h | h
      · rw [h] at hc; simp at hc
      · exact List.mem_cons_of_mem x (ih piece c h hc)
    · rw [splitSlash_cons, if_neg hx] at hp
      cases hsr : splitSlash rest with
      | nil =>
        rw [hsr] at hp
        simp only [List.mem_singleton] at hp
        rw [hp] at hc
        simp only [List.mem_singleton] at hc
        rw [hc]
        exact List.mem_cons_self x rest
      | cons s1 ss =>
        rw [hsr] at hp
        rcases List.mem_cons.mp hp with h | h
        · rw [h] at hc
          rcases List.mem_cons.mp hc with h2 | h2
          · rw [h2]; exact List.mem_cons_self x rest
          · refine List.mem_cons_of_mem x (ih s1 c ?_ h2)
            rw [hsr]
            exact List.mem_cons_self s1 ss
        · refine List.mem_cons_of_mem x (ih piece c ?_ hc)
          rw [hsr]
          exact List.mem_cons_of_mem s1 h

theorem mem_pathName {p : Str} {c : Char} (h : c ∈ pathName p) : c ∈ p := by
  simp only [pathName] at h
  cases hl : ((splitSlash p).filter (fun c => c ≠ [] ∧ c ≠ ['.'])).getLast? with
  | none => rw [hl] at h; simp at h
  | some piece =>
    rw [hl] at h
    simp only [Option.getD_some] at h
    have hmem := List.mem_of_mem_getLast? hl
    have hsp := (List.mem_filter.mp hmem).1
    exact mem_splitSlash p piece c hsp h

theorem find_best_match_mem {scorer : Scorer} {fn : Str}
    {inv : Option (List FileRecord)} {p : Str}
    (h : find_best_match scorer fn inv = some p) :
    ∃ fl, inv = some fl ∧ ∃ rec ∈ fl, p = rec.path := by
  cases inv with
  | none => simp [find_best_match] at h
  | some fl =>
    refine ⟨fl, rfl, ?_⟩
    simp only [find_best_match] at h
    by_cases hfl : fl = []
    · rw [if_pos hfl] at h; simp at h
    · rw [if_neg hfl] at h
      cases heo : extractOne scorer (pyStem fn) (fl.map (·.name_without_ext)) with
      | none => rw [heo] at h; simp at h
      | some best =>
        rw [heo] at h
        simp only at h
        by_cases hgt : best.2 > 60
        · rw [if_pos hgt] at h
          obtain ⟨rec, hrec, hpath⟩ := Option.map_eq_some'.mp h
          exact ⟨rec, List.get?_mem hrec, hpath.symm⟩
        · rw [if_neg hgt] at h; simp at h

theorem scan_path_mem {fs : FileSystem} {fl : List FileRecord} {rec : FileRecord}
    (h : scan_files_directory fs = some fl) (hrec : rec ∈ fl) :
    ∃ e ∈ fs.entries, rec.path = e.path := by
  simp only [scan_files_directory] at h
  by_cases hd : fs.dirExists
  · rw [if_neg (by simpa using hd)] at h
    by_cases hw : fs.walkError
    · rw [if_pos hw] at h; simp at h
    · rw [if_neg hw] at h
      split at h
      · simp at h
      · rw [Option.some.injEq] at h
        rw [← h] at hrec
        obtain ⟨e, he, heq⟩ := List.mem_map.mp hrec
        refine ⟨e, (List.mem_filter.mp he).1, ?_⟩
        rw [← heq]
  · rw [if_pos (by simpa using hd)] at h
    simp at h

theorem mkLink_filename_no_bracket (scorer : Scorer) (inv : Option (List FileRecord))
    (t u : Str) (htc : ∀ c ∈ t, c ≠ '[' ∧ c ≠ ']' ∧ c ≠ '%')
    (huc : ∀ c ∈ u, c ≠ '[' ∧ c ≠ ')' ∧ c ≠ '%') :
    '[' ∉ (mkLink scorer inv (t, u)).filename := by
  intro hmem
  have hfield : (mkLink scorer inv (t, u)).filename
      = (unquote (if (if u ≠ [] then pathName u else t) = []
            ∨ '.' ∉ (if u ≠ [] then pathName u else t) then t
          else (if u ≠ [] then pathName u else t))).takeWhile (fun c => c ≠ '.') := rfl
  rw [hfield] at hmem
  have hsub : ∀ c, c ∈ (if (if u ≠ [] then pathName u else t) = []
        ∨ '.' ∉ (if u ≠ [] then pathName u else t) then t
      else (if u ≠ [] then pathName u else t)) → c ∈ t ∨ c ∈ u := by
    intro c hc
    split at hc
    · split at hc
      · exact Or.inl hc
      · exact Or.inr (mem_pathName hc)
    · split at hc
      · exact Or.inl hc
      · exact Or.inl hc
  have hnp : '%' ∉ (if (if u ≠ [] then pathName u else t) = []
        ∨ '.' ∉ (if u ≠ [] then pathName u else t) then t
      else (if u ≠ [] then pathName u else t)) := by
    intro hp
    rcases hsub '%' hp with h | h
    · exact (htc _ h).2.2 rfl
    · exact (huc _ h).2.2 rfl
  rw [unquote_no_pct _ hnp] at hmem
  have hmem2 := (List.takeWhile_sublist (l := (if (if u ≠ [] then pathName u else t) = []
      ∨ '.' ∉ (if u ≠ [] then pathName u else t) then t
    else (if u ≠ [] then pathName u else t))) (p := fun c => c ≠ '.')).mem hmem
  rcases hsub '[' hmem2 with h | h
  · exact (htc _ h).1 rfl
  · exact (huc _ h).1 rfl

theorem mkLink_url_no_bracket (scorer : Scorer) (fs : FileSystem) (t u : Str)
    (huc : ∀ c ∈ u, c ≠ '[' ∧ c ≠ ')' ∧ c ≠ '%')
    (hfs : ∀ e ∈ fs.entries, '[' ∉ e.path) :
    '[' ∉ (mkLink scorer (scan_files_directory fs) (t, u)).url := by
  intro hmem
  have hfield : (mkLink scorer (scan_files_directory fs) (t, u)).url
      = (match find_best_match scorer
          (unquote (if (if u ≠ [] then pathName u else t) = []
              ∨ '.' ∉ (if u ≠ [] then pathName u else t) then t
            else (if u ≠ [] then pathName u else t)))
          (scan_files_directory fs) with
        | some mp => gradioFilePre ++ mp
        | none => u) := rfl
  rw [hfield] at hmem
  cases hfm : find_best_match scorer
      (unquote (if (if u ≠ [] then pathName u else t) = []
          ∨ '.' ∉ (if u ≠ [] then pathName u else t) then t
        else (if u ≠ [] then pathName u else t)))
      (scan_files_directory fs) with
  | none =>
    rw [hfm] at hmem
    simp only at hmem
    exact (huc _ hmem).1 rfl
  | some mp =>
    rw [hfm] at hmem
    simp only [List.mem_append] at hmem
    rcases hmem with h | h
    · revert h; decide
    · obtain ⟨fl, hfl, rec, hrec, hppath⟩ := find_best_match_mem hfm
      obtain ⟨e, he, hepath⟩ := scan_path_mem hfl hrec
      rw [hppath, hepath] at h
      exact hfs e he h

theorem cardHtml_no_bracket {k : Nat} {l : ExtractedLink}
    (hf : '[' ∉ l.filename) (hu : '[' ∉ l.url) : '[' ∉ cardHtml k l := by
  intro hc
  simp only [cardHtml, List.mem_append] at hc
  rcases hc with (((((((h | h) | h) | h) | h) | h) | h) | h) | h
  · revert h; decide
  · exact anchorId_no_bracket k h
  · revert h; decide
  · revert h; decide
  · revert h; decide
  · exact escapeHtml_no_bracket hf h
  · revert h; decide
  · exact escapeHtml_no_bracket hu h
  · revert h; decide

theorem mem_cardsFrom : ∀ (links : List ExtractedLink) (i : Nat) (x : Str),
    x ∈ cardsFrom i links → ∃ k l, l ∈ links ∧ x = cardHtml k l := by
  intro links
  induction links with
  | nil => intro i x h; simp [cardsFrom] at h
  | cons l0 ls ih =>
    intro i x h
    rcases List.mem_cons.mp h with h | h
    · exact ⟨i, l0, List.mem_cons_self l0 ls, h⟩
    · obtain ⟨k, l, hl, hx⟩ := ih (i + 1) x h
      exact ⟨k, l, List.mem_cons_of_mem l0 hl, hx⟩

theorem cards_html_no_bracket {links : List ExtractedLink}
    (h : ∀ l ∈ links, '[' ∉ l.filename ∧ '[' ∉ l.url) :
    '[' ∉ cards_html links := by
  intro hc
  simp only [cards_html, List.mem_append] at hc
  rcases hc with (h2 | h2) | h2
  · revert h2; decide
  · obtain ⟨piece, hp, hcp⟩ := List.mem_flatten.mp h2
    obtain ⟨k, l, hl, hx⟩ := mem_cardsFrom links 0 piece hp
    rw [hx] at hcp
    exact cardHtml_no_bracket (h l hl).1 (h l hl).2 hcp
  · revert h2; decide

/-- C6 amended: on a message made of plain segments (no `[`) and
well-formed local links (non-empty text/URL avoiding brackets, the closing
delimiters and percent escapes), over an inventory whose paths contain no
`[`, extraction followed by rewrite produces output from which a second
extraction yields zero links, so a second rewrite pass leaves the turn
content unchanged (no rewrite republish happens). -/
theorem C6_rewritten_no_reextraction (scorer : Scorer) (fs : FileSystem)
    (m : List Seg) (hOK : ∀ sg ∈ m, SegOK sg)
    (hfs : ∀ e ∈ fs.entries, '[' ∉ e.path) :
    extract_markdown_links scorer fs
      (rewriteMessage (renderMsg m)
        (extract_markdown_links scorer fs (renderMsg m))) = [] ∧
    (∀ (history : List ChatMsg) (chunks : List Str),
      chunks.flatten = rewriteMessage (renderMsg m)
        (extract_markdown_links scorer fs (renderMsg m)) →
      botYields scorer fs history ⟨chunks, false⟩
        = (List.range chunks.length).map
            (fun k => history ++ [⟨assistantRole, (chunks.take (k + 1)).flatten⟩])) := by
  have hrec : extract_markdown_links scorer fs (renderMsg m)
      = (linksOf m).map (mkLink scorer (scan_files_directory fs)) :=
    extract_renderMsg scorer fs m hOK
  have hupd : updatedMessage (renderMsg m)
      ((linksOf m).map (mkLink scorer (scan_files_directory fs)))
      = renderMixAux (0 + (linksOf m).length) 0 m := by
    have h0 : renderMixAux 0 0 m = renderMsg m := renderMixAux_le m 0 0 (Nat.le_refl 0)
    have := replaceLinks_render scorer (scan_files_directory fs) m hOK
      (linksOf m) 0 (by simp)
    rw [h0] at this
    exact this
  have hnb_upd : '[' ∉ renderMixAux (0 + (linksOf m).length) 0 m :=
    renderMixAux_no_bracket m (0 + (linksOf m).length) 0 (by omega) hOK
  have hnb_cards : '[' ∉ cards_html
      ((linksOf m).map (mkLink scorer (scan_files_directory fs))) := by
    apply cards_html_no_bracket
    intro l hl
    obtain ⟨⟨t, u⟩, htu, hlEq⟩ := List.mem_map.mp hl
    obtain ⟨-, -, htc, huc, -⟩ := hOK _ (linksOf_mem htu)
    rw [← hlEq]
    exact ⟨mkLink_filename_no_bracket scorer _ t u htc huc,
      mkLink_url_no_bracket scorer fs t u huc hfs⟩
  have hnb : '[' ∉ rewriteMessage (renderMsg m)
      (extract_markdown_links scorer fs (renderMsg m)) := by
    rw [hrec]
    intro hc
    rcases List.mem_append.mp hc with h | h
    · rw [hupd] at h
      exact hnb_upd h
    · exact hnb_cards h
  have hfl : findLinks (rewriteMessage (renderMsg m)
      (extract_markdown_links scorer fs (renderMsg m))) = [] :=
    findLinks_no_bracket _ (fun c hc heq => hnb (heq ▸ hc))
  constructor
  · rw [extract_eq, hfl]
    rfl
  · intro history chunks hch
    have hempty : extract_markdown_links scorer fs chunks.flatten = [] := by
      rw [hch, extract_eq, hfl]
      rfl
    simp only [botYields, hempty]
    simp

/-- C6 witness for the amended claim: a plain-text-plus-one-link message
over the one-file inventory; re-extraction on the rewritten output is
empty. -/
theorem C6_rewritten_no_reextraction_witness :
    extract_markdown_links eqScorer fsReport
      (rewriteMessage
        (renderMsg [Seg.plain "see ".data, Seg.link "doc".data "report.pdf".data])
        (extract_markdown_links eqScorer fsReport
          (renderMsg [Seg.plain "see ".data, Seg.link "doc".data "report.pdf".data])))
      = [] :=
  (C6_rewritten_no_reextraction eqScorer fsReport
    [Seg.plain "see ".data, Seg.link "doc".data "report.pdf".data]
    (by decide) (by decide)).1
